import Mathlib

/-!
# BusTub: the LRU-K replacer, the disk scheduler and HyperLogLog (Presto)

A shallow embedding of `LRUKReplacer` (`src/buffer/lru_k_replacer.cpp`), of the worker
loop of `DiskScheduler` and of `HyperLogLogPresto`, and the statements about them.

* `size_t` values are natural numbers reduced modulo `2 ^ 64` wherever the
  C++ arithmetic can wrap (`++`, `--`, unsigned subtraction, the cast of a
  signed frame id); the unsigned difference `a - b` is `(2 ^ 64 + a - b) % 2 ^ 64`.
* `frame_id_t` is `int32_t`; frame ids are integers, and `isFrameId` is the
  range of the type.
* `node_store_` is an `std::unordered_map`.  It is embedded as an association
  list whose order is the iteration order of the map.  That order is
  unspecified in C++, so the reachability relation allows any reordering.
* A failed `BUSTUB_ASSERT` and undefined behaviour (`front()`, `back()`,
  `pop_front()` on an empty list) are explicit faults.
-/

namespace bustub

/-! ## Data model -/

/-- Modulus of `size_t` arithmetic (64-bit). -/
def SIZE_MOD : Nat := 2 ^ 64

/-- The value range of `frame_id_t` (`int32_t`). -/
def isFrameId (frame_id : Int) : Prop := -(2 : Int) ^ 31 ≤ frame_id ∧ frame_id < (2 : Int) ^ 31

instance (frame_id : Int) : Decidable (isFrameId frame_id) := by
  unfold isFrameId; infer_instance

/-- The conversion `static_cast<size_t>(frame_id)`: reduction modulo `2 ^ 64`. -/
def size_t_cast (frame_id : Int) : Nat := (frame_id % ((2 : Int) ^ 64)).toNat

/-- Modelled from the spec: the enumeration `AccessType`, declared in a header that
is not among the sources.  The spec only says that the access kind "is accepted
but not used for eviction decisions"; no function of the replacer inspects it. -/
inductive AccessType where
  | Unknown
  | Lookup
  | Scan
  | Index
  deriving DecidableEq, Repr

/-- Modelled from the spec: the class `LRUKNode` ("access record"), declared in
`buffer/lru_k_replacer.h`, which is not among the sources.  The fields are the
ones `lru_k_replacer.cpp` uses: `history_` ("an ordered, bounded sequence of
logical timestamps", oldest at the front: `RecordAccess` appends with
`emplace_back` and trims with `pop_front`), `k_`, `fid_` (the two constructor
arguments in `LRUKNode newNode{k_, frame_id}`) and `is_evictable_` ("plus an
evictable boolean"), which a new node has as `false`. -/
structure LRUKNode where
  history_ : List Nat
  k_ : Nat
  fid_ : Int
  is_evictable_ : Bool
  deriving DecidableEq, Repr

/-- Modelled from the spec: the data members of `LRUKReplacer`, declared in
`buffer/lru_k_replacer.h`, which is not among the sources ("mapping frame-id →
access record; a monotonically increasing logical clock ...; a counter of
currently-evictable frames").  `node_store_` lists the entries of the map in
iteration order. -/
structure LRUKReplacer where
  node_store_ : List (Int × LRUKNode)
  current_timestamp_ : Nat
  curr_size_ : Nat
  replacer_size_ : Nat
  k_ : Nat
  deriving DecidableEq, Repr

/-- Ways in which a call does not return normally. -/
inductive Fault where
  /-- A `BUSTUB_ASSERT` whose condition is false: the process aborts. -/
  | assertion_failure
  /-- A call the C++ standard leaves undefined (`front`, `back` or `pop_front`
  of an empty `std::list`). -/
  | undefined_behaviour
  deriving DecidableEq, Repr

/-! ## The map operations used by the replacer -/

/-- The call `node_store_.find(frame_id)`: the record stored under `frame_id`, if any. -/
def find : List (Int × LRUKNode) → Int → Option LRUKNode
  | [], _ => none
  | (fid, node) :: rest, frame_id => if fid = frame_id then some node else find rest frame_id

/-- Assignment through the iterator returned by `find` (`it->second = node`):
the entry keeps its place in the map. -/
def assign : List (Int × LRUKNode) → Int → LRUKNode → List (Int × LRUKNode)
  | [], _, _ => []
  | (fid, old) :: rest, frame_id, node =>
      if fid = frame_id then (fid, node) :: rest else (fid, old) :: assign rest frame_id node

/-- The call `node_store_.erase(it)` for the iterator returned by `find(frame_id)`. -/
def erase : List (Int × LRUKNode) → Int → List (Int × LRUKNode)
  | [], _ => []
  | (fid, node) :: rest, frame_id =>
      if fid = frame_id then rest else (fid, node) :: erase rest frame_id

/-- The call `node_store_.emplace(frame_id, node)`: nothing is inserted when the key
is present. -/
def emplace (store : List (Int × LRUKNode)) (frame_id : Int) (node : LRUKNode) :
    List (Int × LRUKNode) :=
  match find store frame_id with
  | some _ => store
  | none => store ++ [(frame_id, node)]

/-! ## The replacer -/

/-- The constructor `LRUKReplacer::LRUKReplacer(num_frames, k)`; the clock and the size
start at zero and the map is empty. -/
def LRUKReplacer.new (num_frames k : Nat) : LRUKReplacer :=
  { node_store_ := [], current_timestamp_ := 0, curr_size_ := 0,
    replacer_size_ := num_frames, k_ := k }

/-- The method `LRUKReplacer::Size`. -/
def Size (s : LRUKReplacer) : Nat := s.curr_size_

/-- The method `LRUKReplacer::Remove`. -/
def Remove (s : LRUKReplacer) (frame_id : Int) : Except Fault LRUKReplacer :=
  match find s.node_store_ frame_id with
  | none => .error .assertion_failure
  | some node =>
      if !node.is_evictable_ then .ok s
      else
        .ok { s with
          node_store_ := erase s.node_store_ frame_id
          curr_size_ := (SIZE_MOD + s.curr_size_ - 1) % SIZE_MOD }

/-- The local struct `frame_` of `Evict`: the best candidate seen so far.  The
fields `frame_id` and `difference` are uninitialised in C++ while `exist` is false
and are never read then; they are `0` here. -/
structure frame_ where
  exist : Bool
  frame_id : Int
  difference : Nat
  deriving DecidableEq, Repr

/-- A default-constructed `frame_`. -/
def frame_.init : frame_ := { exist := false, frame_id := 0, difference := 0 }

/-- The method `frame_::set`. -/
def frame_.set (_self : frame_) (exist_ : Bool) (frame_id_ : Int) (difference_ : Nat) : frame_ :=
  { exist := exist_, frame_id := frame_id_, difference := difference_ }

/-- The loop `for (auto &[frame_id, node] : node_store_)` of `Evict`, over the entries
still to visit, with the two candidates `lessThan_k` and `equalTo_k`. -/
def evictLoop (k_ current_timestamp_ : Nat) :
    List (Int × LRUKNode) → frame_ → frame_ → Except Fault (frame_ × frame_)
  | [], lessThan_k, equalTo_k => .ok (lessThan_k, equalTo_k)
  | (frame_id, node) :: rest, lessThan_k, equalTo_k =>
      if !node.is_evictable_ then evictLoop k_ current_timestamp_ rest lessThan_k equalTo_k
      else if node.history_.length < k_ then
        match node.history_.head? with
        | none => .error .undefined_behaviour
        | some time_stamp =>
            if !lessThan_k.exist || decide (lessThan_k.difference > time_stamp) then
              evictLoop k_ current_timestamp_ rest
                (lessThan_k.set true frame_id time_stamp) equalTo_k
            else evictLoop k_ current_timestamp_ rest lessThan_k equalTo_k
      else
        match node.history_.getLast? with
        | none => .error .undefined_behaviour
        | some time_stamp =>
            let score := (SIZE_MOD + current_timestamp_ - time_stamp) % SIZE_MOD
            if !equalTo_k.exist || decide (equalTo_k.difference < score) then
              evictLoop k_ current_timestamp_ rest
                lessThan_k (equalTo_k.set true frame_id score)
            else evictLoop k_ current_timestamp_ rest lessThan_k equalTo_k

/-- The method `LRUKReplacer::Evict`: the state after the call and the returned
`std::optional<frame_id_t>`. -/
def Evict (s : LRUKReplacer) : Except Fault (LRUKReplacer × Option Int) :=
  if s.curr_size_ = 0 then .ok (s, none)
  else
    match evictLoop s.k_ s.current_timestamp_ s.node_store_ frame_.init frame_.init with
    | .error e => .error e
    | .ok (lessThan_k, equalTo_k) =>
        if lessThan_k.exist then
          match Remove s lessThan_k.frame_id with
          | .error e => .error e
          | .ok s1 => .ok (s1, some lessThan_k.frame_id)
        else if equalTo_k.exist then
          match Remove s equalTo_k.frame_id with
          | .error e => .error e
          | .ok s1 => .ok (s1, some equalTo_k.frame_id)
        else .ok (s, none)

/-- The method `LRUKReplacer::RecordAccess`. -/
def RecordAccess (s : LRUKReplacer) (frame_id : Int) (_access_type : AccessType) :
    Except Fault LRUKReplacer :=
  if ¬ (size_t_cast frame_id < s.replacer_size_) then .error .assertion_failure
  else
    match find s.node_store_ frame_id with
    | some node =>
        if node.history_.length = node.k_ then
          match node.history_ with
          | [] => .error .undefined_behaviour
          | _ :: popped =>
              .ok { s with
                node_store_ := assign s.node_store_ frame_id
                  { node with history_ := popped ++ [s.current_timestamp_] }
                current_timestamp_ := (s.current_timestamp_ + 1) % SIZE_MOD }
        else
          .ok { s with
            node_store_ := assign s.node_store_ frame_id
              { node with history_ := node.history_ ++ [s.current_timestamp_] }
            current_timestamp_ := (s.current_timestamp_ + 1) % SIZE_MOD }
    | none =>
        let newNode : LRUKNode :=
          { history_ := [s.current_timestamp_], k_ := s.k_, fid_ := frame_id,
            is_evictable_ := false }
        .ok { s with
          node_store_ := emplace s.node_store_ frame_id newNode
          current_timestamp_ := (s.current_timestamp_ + 1) % SIZE_MOD }

/-- The method `LRUKReplacer::SetEvictable`. -/
def SetEvictable (s : LRUKReplacer) (frame_id : Int) (set_evictable : Bool) : LRUKReplacer :=
  match find s.node_store_ frame_id with
  | none => s
  | some node =>
      if !node.is_evictable_ && set_evictable then
        { s with
          node_store_ := assign s.node_store_ frame_id { node with is_evictable_ := set_evictable }
          curr_size_ := (s.curr_size_ + 1) % SIZE_MOD }
      else if node.is_evictable_ && !set_evictable then
        { s with
          node_store_ := assign s.node_store_ frame_id { node with is_evictable_ := set_evictable }
          curr_size_ := (SIZE_MOD + s.curr_size_ - 1) % SIZE_MOD }
      else s

/-! ## Reachable states -/

/-- The states a replacer can be in: the state after construction, and every state
obtained from a reachable one by a call that returns.  The last rule reflects that
the iteration order of an `std::unordered_map` is unspecified. -/
inductive Reachable : LRUKReplacer → Prop where
  | construct (num_frames k : Nat) (hn : num_frames < SIZE_MOD) (hk : k < SIZE_MOD) :
      Reachable (LRUKReplacer.new num_frames k)
  | recordAccess {s s1 : LRUKReplacer} (frame_id : Int) (access_type : AccessType) :
      Reachable s → isFrameId frame_id → RecordAccess s frame_id access_type = .ok s1 →
      Reachable s1
  | setEvictable {s : LRUKReplacer} (frame_id : Int) (set_evictable : Bool) :
      Reachable s → Reachable (SetEvictable s frame_id set_evictable)
  | remove {s s1 : LRUKReplacer} (frame_id : Int) :
      Reachable s → Remove s frame_id = .ok s1 → Reachable s1
  | evict {s s1 : LRUKReplacer} (r : Option Int) :
      Reachable s → Evict s = .ok (s1, r) → Reachable s1
  | reorder {s : LRUKReplacer} (store : List (Int × LRUKNode)) :
      Reachable s → store.Perm s.node_store_ → Reachable { s with node_store_ := store }

/-- The number of records whose evictable flag is set. -/
def evictableCount (store : List (Int × LRUKNode)) : Nat :=
  store.countP (fun e => e.2.is_evictable_)

/-- The part of the representation invariant the eviction results rest on: keys are
distinct frame ids, no history is empty, and the size counter counts the evictable
records. -/
structure Inv (s : LRUKReplacer) : Prop where
  nodup : (s.node_store_.map Prod.fst).Nodup
  ids : ∀ e ∈ s.node_store_, isFrameId e.1
  nonempty : ∀ e ∈ s.node_store_, e.2.history_ ≠ []
  size : s.curr_size_ = evictableCount s.node_store_

/-- Group A of `Evict`: evictable entries with fewer than `k` recorded accesses. -/
def inA (k : Nat) (e : Int × LRUKNode) : Prop :=
  e.2.is_evictable_ = true ∧ e.2.history_.length < k

/-- Group B of `Evict`: the evictable entries that are not in group A. -/
def inB (k : Nat) (e : Int × LRUKNode) : Prop :=
  e.2.is_evictable_ = true ∧ ¬ e.2.history_.length < k

/-- What the loop of `Evict` does to the candidate `lessThan_k` over the entries `l`:
`lt` before the loop, `lt1` after it. -/
def LessSpec (k : Nat) (l : List (Int × LRUKNode)) (lt lt1 : frame_) : Prop :=
  (lt1.exist = true ↔ lt.exist = true ∨ ∃ e ∈ l, inA k e) ∧
  (lt1 = lt ∨ ∃ e ∈ l, inA k e ∧ lt1.frame_id = e.1 ∧ e.2.history_.head? = some lt1.difference) ∧
  (lt.exist = true → lt1.difference ≤ lt.difference) ∧
  (∀ e ∈ l, inA k e → ∀ u, e.2.history_.head? = some u → lt1.difference ≤ u)

/-- What the loop of `Evict` does to the candidate `equalTo_k` over the entries `l`. -/
def EqSpec (k : Nat) (l : List (Int × LRUKNode)) (eq eq1 : frame_) : Prop :=
  (eq1.exist = true ↔ eq.exist = true ∨ ∃ e ∈ l, inB k e) ∧
  (eq1 = eq ∨ ∃ e ∈ l, inB k e ∧ eq1.frame_id = e.1)

/-- The state `Remove` leaves when it erases the record of `frame_id`. -/
def removed (s : LRUKReplacer) (frame_id : Int) : LRUKReplacer :=
  { s with
    node_store_ := erase s.node_store_ frame_id
    curr_size_ := (SIZE_MOD + s.curr_size_ - 1) % SIZE_MOD }

/-! ## Example states -/

/-- The state after `LRUKReplacer(2, 2)`, `RecordAccess(0)`, `RecordAccess(1)`,
`RecordAccess(1)`, `SetEvictable(0, true)`, `SetEvictable(1, true)`: frame 0 was
accessed once, frame 1 twice, both are evictable. -/
def onceTwice : LRUKReplacer :=
  { node_store_ :=
      [(0, { history_ := [0], k_ := 2, fid_ := 0, is_evictable_ := true }),
       (1, { history_ := [1, 2], k_ := 2, fid_ := 1, is_evictable_ := true })]
    current_timestamp_ := 3, curr_size_ := 2, replacer_size_ := 2, k_ := 2 }

/-- The state after `LRUKReplacer(2, 2)`, `RecordAccess(0)`, `RecordAccess(1)`,
`RecordAccess(1)`, `RecordAccess(0)`, `SetEvictable(0, true)`, `SetEvictable(1, true)`:
both frames hold `k = 2` timestamps; frame 0 was accessed first and last. -/
def firstAndLast : LRUKReplacer :=
  { node_store_ :=
      [(0, { history_ := [0, 3], k_ := 2, fid_ := 0, is_evictable_ := true }),
       (1, { history_ := [1, 2], k_ := 2, fid_ := 1, is_evictable_ := true })]
    current_timestamp_ := 4, curr_size_ := 2, replacer_size_ := 2, k_ := 2 }

/-- The state after `LRUKReplacer(1, 1)` and `RecordAccess(0)`: frame 0 has a record
and is not evictable. -/
def pinnedOnly : LRUKReplacer :=
  { node_store_ := [(0, { history_ := [0], k_ := 1, fid_ := 0, is_evictable_ := false })]
    current_timestamp_ := 1, curr_size_ := 0, replacer_size_ := 1, k_ := 1 }

/-- The state after `LRUKReplacer(3, 2)`, `RecordAccess(2)`, `RecordAccess(2)`,
`RecordAccess(1)`, `RecordAccess(0)` and `SetEvictable(f, true)` for the three frames,
with the map iterated in the order 0, 1, 2: frames 0 and 1 were accessed once (at 3 and
at 2), frame 2 twice (at 0 and 1). -/
def twoWaiting : LRUKReplacer :=
  { node_store_ :=
      [(0, { history_ := [3], k_ := 2, fid_ := 0, is_evictable_ := true }),
       (1, { history_ := [2], k_ := 2, fid_ := 1, is_evictable_ := true }),
       (2, { history_ := [0, 1], k_ := 2, fid_ := 2, is_evictable_ := true })]
    current_timestamp_ := 4, curr_size_ := 3, replacer_size_ := 3, k_ := 2 }

/-! ## Call sequences -/

/-- A call of one of the four state-changing methods of the replacer. -/
inductive Call where
  | RecordAccess (frame_id : Int) (access_type : AccessType)
  | SetEvictable (frame_id : Int) (set_evictable : Bool)
  | Remove (frame_id : Int)
  | Evict
  deriving DecidableEq, Repr

/-- What a call that returned did to the set of records, as its caller sees it: it
recorded an access of a frame, it removed a frame (`Remove` of an evictable frame), or
it evicted a frame (`Evict` returned the frame). -/
inductive Event where
  | accessed (frame_id : Int)
  | removed (frame_id : Int)
  | evicted (frame_id : Int)
  deriving DecidableEq, Repr

/-- One call: the state after it and the events it adds to the log. -/
def exec (s : LRUKReplacer) : Call → Except Fault (LRUKReplacer × List Event)
  | .RecordAccess frame_id access_type =>
      match RecordAccess s frame_id access_type with
      | .error e => .error e
      | .ok s1 => .ok (s1, [.accessed frame_id])
  | .SetEvictable frame_id set_evictable => .ok (SetEvictable s frame_id set_evictable, [])
  | .Remove frame_id =>
      match Remove s frame_id with
      | .error e => .error e
      | .ok s1 =>
          match find s.node_store_ frame_id with
          | some node => .ok (s1, if node.is_evictable_ then [.removed frame_id] else [])
          | none => .ok (s1, [])
  | .Evict =>
      match Evict s with
      | .error e => .error e
      | .ok (s1, some frame_id) => .ok (s1, [.evicted frame_id])
      | .ok (s1, none) => .ok (s1, [])

/-- A sequence of calls, each on the state the previous one left; it stops at the first
call that does not return.  `log` holds the events so far, oldest first. -/
def run : LRUKReplacer → List Event → List Call → Except Fault (LRUKReplacer × List Event)
  | s, log, [] => .ok (s, log)
  | s, log, c :: cs =>
      match exec s c with
      | .error e => .error e
      | .ok (s1, events) => run s1 (log ++ events) cs

/-- The frame ids passed to `RecordAccess` are values of `frame_id_t`. -/
def Call.typed : Call → Prop
  | .RecordAccess frame_id _ => isFrameId frame_id
  | _ => True

/-- The state `RecordAccess(frame_id)` leaves when it returns. -/
def recorded (s : LRUKReplacer) (frame_id : Int) : LRUKReplacer :=
  { s with
    node_store_ :=
      match find s.node_store_ frame_id with
      | some node =>
          assign s.node_store_ frame_id
            { node with
              history_ :=
                (if node.history_.length = node.k_ then node.history_.tail else node.history_)
                  ++ [s.current_timestamp_] }
      | none =>
          s.node_store_ ++
            [(frame_id, { history_ := [s.current_timestamp_], k_ := s.k_, fid_ := frame_id,
                          is_evictable_ := false })]
    current_timestamp_ := (s.current_timestamp_ + 1) % SIZE_MOD }

/-- The second part of the representation invariant: every tracked frame id passes the
check of `RecordAccess`, every record carries the `k` of the replacer, and for `k >= 1`
no history is longer than `k`. -/
structure Inv2 (s : LRUKReplacer) : Prop where
  below : ∀ e ∈ s.node_store_, size_t_cast e.1 < s.replacer_size_
  node_k : ∀ e ∈ s.node_store_, e.2.k_ = s.k_
  length_le : 1 ≤ s.k_ → ∀ e ∈ s.node_store_, e.2.history_.length ≤ s.k_

/-- The state after `LRUKReplacer(2 ^ 64 - 1, 2)` and `RecordAccess(-2)`. -/
def negativeTracked : LRUKReplacer :=
  { node_store_ := [(-2, { history_ := [0], k_ := 2, fid_ := -2, is_evictable_ := false })]
    current_timestamp_ := 1, curr_size_ := 0, replacer_size_ := 2 ^ 64 - 1, k_ := 2 }

/-- The words of the spec "the frame has been accessed at least once since it was last
evicted or removed (or since construction)", read on the log of events: the last event
on the frame is an access. -/
def accessedSinceDropped (log : List Event) (frame_id : Int) : Bool :=
  log.foldl
    (fun live e =>
      match e with
      | .accessed g => if g = frame_id then true else live
      | .removed g => if g = frame_id then false else live
      | .evicted g => if g = frame_id then false else live)
    false

/-- The number of `RecordAccess` calls that returned. -/
def accessCount (log : List Event) : Nat :=
  log.countP (fun e => match e with | .accessed _ => true | _ => false)

/-- The order of the recorded accesses: every stored timestamp is below the clock, every
history increases from front to back, and two histories with a timestamp in common
belong to the same frame. -/
structure InvClock (s : LRUKReplacer) : Prop where
  below_clock : ∀ e ∈ s.node_store_, ∀ t ∈ e.2.history_, t < s.current_timestamp_
  increasing : ∀ e ∈ s.node_store_, e.2.history_.Pairwise (fun a b => a < b)
  disjoint : ∀ e1 ∈ s.node_store_, ∀ e2 ∈ s.node_store_, ∀ t,
    t ∈ e1.2.history_ → t ∈ e2.2.history_ → e1.1 = e2.1

instance (c : Call) : Decidable c.typed := by
  cases c <;> unfold Call.typed <;> infer_instance

/-- The calls `RecordAccess(0)`, `RecordAccess(1)`, `SetEvictable(0, true)`, `Evict()`,
`RecordAccess(1)`. -/
def evictThenAccess : List Call :=
  [.RecordAccess 0 .Unknown, .RecordAccess 1 .Unknown, .SetEvictable 0 true, .Evict,
   .RecordAccess 1 .Unknown]

/-- The state after `LRUKReplacer(2, 2)` and the calls `evictThenAccess`. -/
def afterEviction : LRUKReplacer :=
  { node_store_ := [(1, { history_ := [1, 2], k_ := 2, fid_ := 1, is_evictable_ := false })]
    current_timestamp_ := 3, curr_size_ := 0, replacer_size_ := 2, k_ := 2 }

/-! ## The disk scheduler (`src/storage/disk/disk_scheduler.cpp`) -/

/-- Modelled from the spec: the struct `DiskRequest`, declared in
`storage/disk/disk_scheduler.h`, which is not among the sources ("a tagged operation —
write or read — naming a page identifier, a mutable byte buffer ..., and a one-shot
completion signal").  The fields are those of the structured binding in
`StartWorkerThread`; the buffer and the promise are identified by numbers. -/
structure DiskRequest where
  is_write_ : Bool
  data_ : Nat
  page_id_ : Int
  callback_ : Nat
  deriving DecidableEq, Repr

/-- What the worker does, in the order in which it does it: a call of the disk manager or
the fulfilment of a completion signal. -/
inductive DiskEvent where
  | WritePage (page_id : Int) (data : Nat)
  | ReadPage (page_id : Int) (data : Nat)
  | set_value (callback : Nat) (value : Bool)
  deriving DecidableEq, Repr

/-- The method `DiskScheduler::StartWorkerThread`, run on a channel whose contents are
the finite sequence `request_queue_` and to which nothing more is put: the events of the
worker and the items left in the channel when it returns, or `none` when it does not
return.

Modelled from the spec: `Channel::Get`, declared in `common/channel.h`, which is not
among the sources ("`Get` blocks the single consumer until an item is available, then
returns it, preserving enqueue order strictly"): it takes the first item of the sequence,
and on the empty sequence it blocks for ever. -/
def StartWorkerThread :
    List (Option DiskRequest) → Option (List DiskEvent × List (Option DiskRequest))
  | [] => none
  | arg :: request_queue_ =>
      match arg with
      | some request =>
          let io :=
            if request.is_write_ then DiskEvent.WritePage request.page_id_ request.data_
            else DiskEvent.ReadPage request.page_id_ request.data_
          match StartWorkerThread request_queue_ with
          | none => none
          | some (events, left) =>
              some (io :: DiskEvent.set_value request.callback_ true :: events, left)
      | none => some ([], request_queue_)

/-- The words of the spec for one request: "dispatches to the external page-store
(`WritePage` for write requests, `ReadPage` for read requests, using the request's page
id and buffer), then fulfills the request's completion signal exactly once". -/
def processed (request : DiskRequest) : List DiskEvent :=
  [match request.is_write_ with
    | true => DiskEvent.WritePage request.page_id_ request.data_
    | false => DiskEvent.ReadPage request.page_id_ request.data_,
   DiskEvent.set_value request.callback_ true]

/-- The requests that precede the first shutdown marker, in enqueue order. -/
def beforeShutdown (items : List (Option DiskRequest)) : List DiskRequest :=
  (items.takeWhile Option.isSome).filterMap id

/-- The items that follow the first shutdown marker. -/
def afterShutdown (items : List (Option DiskRequest)) : List (Option DiskRequest) :=
  (items.dropWhile Option.isSome).drop 1

/-! ## HyperLogLog, Presto variant (`src/primer/hyperloglog_presto.cpp`) -/

/-- Modelled from the spec: the constant `DENSE_BUCKET_SIZE` of
`primer/hyperloglog_presto.h`, which is not among the sources; the claims on
`HyperLogLogPresto` give the dense buckets 4 bits. -/
def DENSE_BUCKET_SIZE : Nat := 4

/-- Modelled from the spec: the constant `OVERFLOW_BUCKET_SIZE` of
`primer/hyperloglog_presto.h`, which is not among the sources; the claims on
`HyperLogLogPresto` give the overflow buckets 3 bits. -/
def OVERFLOW_BUCKET_SIZE : Nat := 3

/-- Modelled from the spec: the data members of `HyperLogLogPresto`, declared in
`primer/hyperloglog_presto.h`, which is not among the sources.  `dense_bucket_` is a
`std::vector` of `std::bitset<DENSE_BUCKET_SIZE>`: its size and the value at each index.
`overflow_bucket_` is an `std::unordered_map` from `uint16_t`, the type `AddElem` converts
the bucket index to, to `std::bitset<OVERFLOW_BUCKET_SIZE>`: the value under each key, if
any. -/
structure HyperLogLogPresto where
  cardinality_ : Nat
  n_leading_bits_ : Int
  dense_size : Nat
  dense_bucket_ : Nat → Nat
  overflow_bucket_ : Nat → Option Nat
  hasStarted : Bool

/-- The constructor `HyperLogLogPresto(n_leading_bits)`, for `0 <= n_leading_bits < 64`:
`2 ^ n_leading_bits` dense buckets, all zero, and no overflow bucket.  (For other values
the conversion of `std::pow(2, ...)` to `uint64_t` is undefined.) -/
def HyperLogLogPresto.new (n_leading_bits : Int) : HyperLogLogPresto :=
  { cardinality_ := 0, n_leading_bits_ := n_leading_bits,
    dense_size := 2 ^ n_leading_bits.toNat,
    dense_bucket_ := fun _ => 0, overflow_bucket_ := fun _ => none, hasStarted := false }

/-- The loop of `PositionOfRightmostOne`: `fuel` iterations are left, the next index is
`i`, the counter (a `uint8_t`) is `pos`; after the last iteration the function returns
64. -/
def rightmostLoop (b : Nat) : Nat → Nat → Nat → Nat
  | 0, _, _ => 64
  | fuel + 1, i, pos =>
      if b.testBit i then pos else rightmostLoop b fuel (i + 1) ((pos + 1) % 256)

/-- The method `HyperLogLogPresto::PositionOfRightmostOne`. -/
def PositionOfRightmostOne (hash_value : Nat) : Nat := rightmostLoop hash_value 64 0 0

/-- The method `HyperLogLogPresto::getWholeNumber`; an index outside the vector is
undefined behaviour.  The key of `overflow_bucket_` is `idx` converted to `uint16_t`. -/
def getWholeNumber (hll : HyperLogLogPresto) (idx : Nat) : Except Fault Nat :=
  if idx < hll.dense_size then
    let lsb := hll.dense_bucket_ idx % 256
    let m_msb :=
      match hll.overflow_bucket_ (idx % 2 ^ 16) with
      | none => 0
      | some bits => bits
    let msb := ((m_msb % 256) <<< 4) % 256
    .ok (lsb ||| msb)
  else .error .undefined_behaviour

/-- The method `HyperLogLogPresto::AddElem`, on the hash value `CalculateHash(val)` (the
hash function is declared in the header and is a parameter here).  A shift by a negative
amount and an index outside the vector are undefined behaviour. -/
def AddElem {KeyType : Type} (CalculateHash : KeyType → Nat) (hll : HyperLogLogPresto)
    (val : KeyType) : Except Fault HyperLogLogPresto :=
  let hash_value := CalculateHash val
  if hll.n_leading_bits_ > 64 then .error .undefined_behaviour
  else
    let b := if hll.n_leading_bits_ > 0 then hash_value >>> (64 - hll.n_leading_bits_).toNat else 0
    let pos0 := PositionOfRightmostOne hash_value
    let pos :=
      if (pos0 : Int) ≥ 64 - hll.n_leading_bits_ then ((64 - hll.n_leading_bits_) % 256).toNat
      else pos0
    let msb := ((pos &&& 0x70) >>> 4) % 256
    let lsb := pos &&& 0x0F
    match getWholeNumber hll b with
    | .error e => .error e
    | .ok whole =>
        if pos > whole then
          .ok { hll with
            hasStarted := true
            dense_bucket_ := fun i =>
              if i = b then lsb % 2 ^ DENSE_BUCKET_SIZE else hll.dense_bucket_ i
            overflow_bucket_ := fun key =>
              if key = b % 2 ^ 16 then some (msb % 2 ^ OVERFLOW_BUCKET_SIZE)
              else hll.overflow_bucket_ key }
        else .ok { hll with hasStarted := true }

/-- The words of the claim "the number of trailing zero bits of h", for a 64-bit value:
the number of bit positions, from bit 0 up, before the first bit that is set. -/
def trailingZeroBits (h : Nat) : Nat :=
  ((List.range 64).takeWhile (fun i => !h.testBit i)).length

/-- The state `AddElem` leaves when it stores `pos` in the register of bucket `b`. -/
def stored (hll : HyperLogLogPresto) (b pos : Nat) : HyperLogLogPresto :=
  { hll with
    hasStarted := true
    dense_bucket_ := fun i =>
      if i = b then (pos &&& 0x0F) % 2 ^ DENSE_BUCKET_SIZE else hll.dense_bucket_ i
    overflow_bucket_ := fun key =>
      if key = b % 2 ^ 16 then some ((((pos &&& 0x70) >>> 4) % 256) % 2 ^ OVERFLOW_BUCKET_SIZE)
      else hll.overflow_bucket_ key }

/-! ## Lemmas on the map operations -/

theorem find_eq_some_of_mem {store : List (Int × LRUKNode)}
    (hnd : (store.map Prod.fst).Nodup) {frame_id : Int} {node : LRUKNode}
    (hmem : (frame_id, node) ∈ store) : find store frame_id = some node := by
  induction store with
  | nil => simp at hmem
  | cons e rest ih =>
    obtain ⟨fid, old⟩ := e
    simp only [List.map_cons, List.nodup_cons, List.mem_map, not_exists, not_and] at hnd
    rcases List.mem_cons.1 hmem with h | h
    · cases h; simp [find]
    · have hne : fid ≠ frame_id := fun heq => hnd.1 (frame_id, node) h (by simp [heq])
      simp [find, hne, ih hnd.2 h]

theorem mem_of_find_eq_some {store : List (Int × LRUKNode)} {frame_id : Int} {node : LRUKNode}
    (h : find store frame_id = some node) : (frame_id, node) ∈ store := by
  induction store with
  | nil => simp [find] at h
  | cons e rest ih =>
    obtain ⟨fid, old⟩ := e
    by_cases hfid : fid = frame_id
    · simp [find, hfid] at h; simp [hfid, h]
    · simp only [find, hfid, if_false] at h
      exact List.mem_cons_of_mem _ (ih h)

theorem find_eq_none_iff {store : List (Int × LRUKNode)} {frame_id : Int} :
    find store frame_id = none ↔ frame_id ∉ store.map Prod.fst := by
  induction store with
  | nil => simp [find]
  | cons e rest ih =>
    obtain ⟨fid, old⟩ := e
    by_cases hfid : fid = frame_id
    · simp [find, hfid]
    · simp [find, hfid, ih, Ne.symm hfid]

theorem find_perm {l1 l2 : List (Int × LRUKNode)} (hp : l1.Perm l2)
    (hnd : (l2.map Prod.fst).Nodup) (frame_id : Int) : find l1 frame_id = find l2 frame_id := by
  have hnd1 : (l1.map Prod.fst).Nodup := (hp.map Prod.fst).nodup_iff.2 hnd
  cases h2 : find l2 frame_id with
  | none =>
    rw [find_eq_none_iff] at h2 ⊢
    exact fun hm => h2 ((hp.map Prod.fst).mem_iff.1 hm)
  | some node =>
    exact find_eq_some_of_mem hnd1 (hp.mem_iff.2 (mem_of_find_eq_some h2))

theorem find_assign_same {store : List (Int × LRUKNode)} {frame_id : Int} {old : LRUKNode}
    (h : find store frame_id = some old) (node : LRUKNode) :
    find (assign store frame_id node) frame_id = some node := by
  induction store with
  | nil => simp [find] at h
  | cons e rest ih =>
    obtain ⟨fid, n0⟩ := e
    by_cases hfid : fid = frame_id
    · simp [assign, find, hfid]
    · simp only [find, hfid, if_false] at h
      simp [assign, find, hfid, ih h]

theorem find_assign_other (store : List (Int × LRUKNode)) {frame_id other : Int}
    (hne : other ≠ frame_id) (node : LRUKNode) :
    find (assign store frame_id node) other = find store other := by
  induction store with
  | nil => simp [assign]
  | cons e rest ih =>
    obtain ⟨fid, n0⟩ := e
    by_cases hfid : fid = frame_id
    · subst hfid
      simp [assign, find, Ne.symm hne]
    · by_cases hfo : fid = other
      · subst hfo
        simp [assign, find, hfid]
      · simp [assign, find, hfid, hfo, ih]

theorem map_fst_assign (store : List (Int × LRUKNode)) (frame_id : Int) (node : LRUKNode) :
    (assign store frame_id node).map Prod.fst = store.map Prod.fst := by
  induction store with
  | nil => simp [assign]
  | cons e rest ih =>
    obtain ⟨fid, n0⟩ := e
    by_cases hfid : fid = frame_id
    · simp [assign, hfid]
    · simp [assign, hfid, ih]

theorem length_assign (store : List (Int × LRUKNode)) (frame_id : Int) (node : LRUKNode) :
    (assign store frame_id node).length = store.length := by
  have := congrArg List.length (map_fst_assign store frame_id node)
  simpa using this

theorem mem_assign {store : List (Int × LRUKNode)} {frame_id : Int} {node : LRUKNode}
    {e : Int × LRUKNode} (h : e ∈ assign store frame_id node) :
    e ∈ store ∨ e = (frame_id, node) := by
  induction store with
  | nil => simp [assign] at h
  | cons e0 rest ih =>
    obtain ⟨fid, n0⟩ := e0
    by_cases hfid : fid = frame_id
    · simp only [assign, hfid, if_true, List.mem_cons] at h
      rcases h with h | h
      · exact Or.inr h
      · exact Or.inl (List.mem_cons_of_mem _ h)
    · simp only [assign, hfid, if_false, List.mem_cons] at h
      rcases h with h | h
      · exact Or.inl (by simp [h])
      · rcases ih h with h1 | h1
        · exact Or.inl (List.mem_cons_of_mem _ h1)
        · exact Or.inr h1

theorem find_erase_other (store : List (Int × LRUKNode)) {frame_id other : Int}
    (hne : other ≠ frame_id) : find (erase store frame_id) other = find store other := by
  induction store with
  | nil => simp [erase]
  | cons e rest ih =>
    obtain ⟨fid, n0⟩ := e
    by_cases hfid : fid = frame_id
    · subst hfid
      simp [erase, find, Ne.symm hne]
    · by_cases hfo : fid = other
      · subst hfo
        simp [erase, find, hfid]
      · simp [erase, find, hfid, hfo, ih]

theorem erase_sublist (store : List (Int × LRUKNode)) (frame_id : Int) :
    (erase store frame_id).Sublist store := by
  induction store with
  | nil => simp [erase]
  | cons e rest ih =>
    obtain ⟨fid, n0⟩ := e
    by_cases hfid : fid = frame_id
    · simp [erase, hfid]
    · simp [erase, hfid, ih]

theorem find_erase_same {store : List (Int × LRUKNode)}
    (hnd : (store.map Prod.fst).Nodup) (frame_id : Int) :
    find (erase store frame_id) frame_id = none := by
  induction store with
  | nil => simp [erase, find]
  | cons e rest ih =>
    obtain ⟨fid, n0⟩ := e
    simp only [List.map_cons, List.nodup_cons] at hnd
    by_cases hfid : fid = frame_id
    · subst hfid
      simp only [erase, if_true]
      exact find_eq_none_iff.2 hnd.1
    · simp [erase, find, hfid, ih hnd.2]

theorem evictableCount_assign {store : List (Int × LRUKNode)} {frame_id : Int} {old : LRUKNode}
    (h : find store frame_id = some old) (node : LRUKNode) :
    evictableCount (assign store frame_id node) + (if old.is_evictable_ then 1 else 0)
      = evictableCount store + (if node.is_evictable_ then 1 else 0) := by
  induction store with
  | nil => simp [find] at h
  | cons e rest ih =>
    obtain ⟨fid, n0⟩ := e
    by_cases hfid : fid = frame_id
    · simp only [find, hfid, if_true, Option.some.injEq] at h
      subst h
      simp only [assign, hfid, if_true, evictableCount, List.countP_cons]
      omega
    · simp only [find, hfid, if_false] at h
      have := ih h
      simp only [assign, hfid, if_false, evictableCount, List.countP_cons] at this ⊢
      omega

theorem evictableCount_erase {store : List (Int × LRUKNode)} {frame_id : Int} {old : LRUKNode}
    (h : find store frame_id = some old) :
    evictableCount (erase store frame_id) + (if old.is_evictable_ then 1 else 0)
      = evictableCount store := by
  induction store with
  | nil => simp [find] at h
  | cons e rest ih =>
    obtain ⟨fid, n0⟩ := e
    by_cases hfid : fid = frame_id
    · simp only [find, hfid, if_true, Option.some.injEq] at h
      subst h
      simp only [erase, hfid, if_true, evictableCount, List.countP_cons]
    · simp only [find, hfid, if_false] at h
      have := ih h
      simp only [erase, hfid, if_false, evictableCount, List.countP_cons] at this ⊢
      omega

theorem evictableCount_le_length (store : List (Int × LRUKNode)) :
    evictableCount store ≤ store.length := List.countP_le_length _

/-- Distinct values of `frame_id_t`: there are at most `2 ^ 32` of them. -/
theorem length_le_of_frameIds (keys : List Int) (hnd : keys.Nodup)
    (hid : ∀ x ∈ keys, isFrameId x) : keys.length ≤ 2 ^ 32 := by
  have hsub : keys.toFinset ⊆ Finset.Ico (-(2 : Int) ^ 31) ((2 : Int) ^ 31) := by
    intro x hx
    have := hid x (List.mem_toFinset.1 hx)
    exact Finset.mem_Ico.2 this
  have hcard := Finset.card_le_card hsub
  rw [List.toFinset_card_of_nodup hnd, Int.card_Ico] at hcard
  norm_num at hcard
  exact hcard

/-! ## The loop of `Evict` -/

theorem lessSpec_nil (k : Nat) (lt : frame_) : LessSpec k [] lt lt := by
  simp [LessSpec]

theorem lessSpec_skip {k : Nat} {l : List (Int × LRUKNode)} {lt lt1 : frame_}
    {e : Int × LRUKNode} (he : ¬ inA k e) (h : LessSpec k l lt lt1) :
    LessSpec k (e :: l) lt lt1 := by
  obtain ⟨h1, h2, h3, h4⟩ := h
  refine ⟨?_, ?_, h3, ?_⟩
  · simp [h1, he]
  · rcases h2 with h2 | ⟨e1, hm, hr⟩
    · exact Or.inl h2
    · exact Or.inr ⟨e1, List.mem_cons_of_mem _ hm, hr⟩
  · intro e1 hm hA
    rcases List.mem_cons.1 hm with heq | hm
    · exact absurd (heq ▸ hA) he
    · exact h4 e1 hm hA

theorem lessSpec_keep {k : Nat} {l : List (Int × LRUKNode)} {lt lt1 : frame_}
    {e : Int × LRUKNode} {ts : Nat} (hts : e.2.history_.head? = some ts)
    (hex : lt.exist = true) (hle : lt.difference ≤ ts) (h : LessSpec k l lt lt1) :
    LessSpec k (e :: l) lt lt1 := by
  obtain ⟨h1, h2, h3, h4⟩ := h
  refine ⟨?_, ?_, h3, ?_⟩
  · simp [h1, hex]
  · rcases h2 with h2 | ⟨e1, hm, hr⟩
    · exact Or.inl h2
    · exact Or.inr ⟨e1, List.mem_cons_of_mem _ hm, hr⟩
  · intro e1 hm hA u hu
    rcases List.mem_cons.1 hm with heq | hm
    · subst heq
      rw [hts] at hu
      cases hu
      exact le_trans (h3 hex) hle
    · exact h4 e1 hm hA u hu

theorem lessSpec_take {k : Nat} {l : List (Int × LRUKNode)} {lt lt1 : frame_}
    {e : Int × LRUKNode} {ts : Nat} (hA : inA k e) (hts : e.2.history_.head? = some ts)
    (hlt : lt.exist = true → ts < lt.difference)
    (h : LessSpec k l (lt.set true e.1 ts) lt1) : LessSpec k (e :: l) lt lt1 := by
  obtain ⟨h1, h2, h3, h4⟩ := h
  have hd : lt1.difference ≤ ts := h3 rfl
  have hex : lt1.exist = true := h1.2 (Or.inl rfl)
  refine ⟨?_, ?_, ?_, ?_⟩
  · constructor
    · intro _
      exact Or.inr ⟨e, List.mem_cons_self _ _, hA⟩
    · intro _
      exact hex
  · right
    rcases h2 with h2 | ⟨e1, hm, hr⟩
    · refine ⟨e, List.mem_cons_self _ _, hA, ?_, ?_⟩
      · rw [h2]; rfl
      · rw [h2]; exact hts
    · exact ⟨e1, List.mem_cons_of_mem _ hm, hr⟩
  · intro hl
    exact le_of_lt (lt_of_le_of_lt hd (hlt hl))
  · intro e1 hm hA1 u hu
    rcases List.mem_cons.1 hm with heq | hm
    · subst heq
      rw [hts] at hu
      cases hu
      exact hd
    · exact h4 e1 hm hA1 u hu

theorem eqSpec_nil (k : Nat) (eq : frame_) : EqSpec k [] eq eq := by
  simp [EqSpec]

theorem eqSpec_skip {k : Nat} {l : List (Int × LRUKNode)} {eq eq1 : frame_}
    {e : Int × LRUKNode} (he : ¬ inB k e) (h : EqSpec k l eq eq1) :
    EqSpec k (e :: l) eq eq1 := by
  obtain ⟨h1, h2⟩ := h
  refine ⟨?_, ?_⟩
  · simp [h1, he]
  · rcases h2 with h2 | ⟨e1, hm, hr⟩
    · exact Or.inl h2
    · exact Or.inr ⟨e1, List.mem_cons_of_mem _ hm, hr⟩

theorem eqSpec_keep {k : Nat} {l : List (Int × LRUKNode)} {eq eq1 : frame_}
    {e : Int × LRUKNode} (hex : eq.exist = true) (h : EqSpec k l eq eq1) :
    EqSpec k (e :: l) eq eq1 := by
  obtain ⟨h1, h2⟩ := h
  refine ⟨?_, ?_⟩
  · simp [h1, hex]
  · rcases h2 with h2 | ⟨e1, hm, hr⟩
    · exact Or.inl h2
    · exact Or.inr ⟨e1, List.mem_cons_of_mem _ hm, hr⟩

theorem eqSpec_take {k : Nat} {l : List (Int × LRUKNode)} {eq eq1 : frame_}
    {e : Int × LRUKNode} {score : Nat} (hB : inB k e)
    (h : EqSpec k l (eq.set true e.1 score) eq1) : EqSpec k (e :: l) eq eq1 := by
  obtain ⟨h1, h2⟩ := h
  have hex : eq1.exist = true := h1.2 (Or.inl rfl)
  refine ⟨?_, ?_⟩
  · constructor
    · intro _
      exact Or.inr ⟨e, List.mem_cons_self _ _, hB⟩
    · intro _
      exact hex
  · right
    rcases h2 with h2 | ⟨e1, hm, hr⟩
    · refine ⟨e, List.mem_cons_self _ _, hB, ?_⟩
      rw [h2]; rfl
    · exact ⟨e1, List.mem_cons_of_mem _ hm, hr⟩

/-- On a map without empty histories the loop of `Evict` runs to its end, and its two
candidates are as `LessSpec` and `EqSpec` say. -/
theorem evictLoop_spec (k cur : Nat) :
    ∀ (l : List (Int × LRUKNode)) (lt eq : frame_), (∀ e ∈ l, e.2.history_ ≠ []) →
      ∃ lt1 eq1, evictLoop k cur l lt eq = .ok (lt1, eq1) ∧
        LessSpec k l lt lt1 ∧ EqSpec k l eq eq1 := by
  intro l
  induction l with
  | nil =>
    intro lt eq _
    exact ⟨lt, eq, rfl, lessSpec_nil k lt, eqSpec_nil k eq⟩
  | cons e rest ih =>
    intro lt eq hne
    obtain ⟨frame_id, node⟩ := e
    have hne1 : ∀ e ∈ rest, e.2.history_ ≠ [] := fun e he => hne e (List.mem_cons_of_mem _ he)
    have hnode : node.history_ ≠ [] := hne (frame_id, node) (List.mem_cons_self _ _)
    by_cases hev : node.is_evictable_ = true
    · by_cases hlen : node.history_.length < k
      · have hA : inA k (frame_id, node) := ⟨hev, hlen⟩
        have hnB : ¬ inB k (frame_id, node) := fun h => h.2 hlen
        obtain ⟨ts, hts⟩ : ∃ ts, node.history_.head? = some ts := by
          cases hh : node.history_ with
          | nil => exact absurd hh hnode
          | cons a t => exact ⟨a, rfl⟩
        by_cases hc : (!lt.exist || decide (lt.difference > ts)) = true
        · obtain ⟨lt1, eq1, hrun, hL, hE⟩ := ih (lt.set true frame_id ts) eq hne1
          refine ⟨lt1, eq1, ?_, ?_, eqSpec_skip hnB hE⟩
          · simp only [evictLoop, hev, hlen, hts, hc, if_true]
            simpa using hrun
          · refine lessSpec_take hA hts ?_ hL
            intro hl
            simpa [hl] using hc
        · obtain ⟨lt1, eq1, hrun, hL, hE⟩ := ih lt eq hne1
          refine ⟨lt1, eq1, ?_, ?_, eqSpec_skip hnB hE⟩
          · simp only [evictLoop, hev, hlen, hts, hc, if_true]
            simpa using hrun
          · have hex : lt.exist = true := by
              by_contra hx
              simp [hx] at hc
            have hle : lt.difference ≤ ts := by
              simpa [hex] using hc
            exact lessSpec_keep hts hex hle hL
      · have hB : inB k (frame_id, node) := ⟨hev, hlen⟩
        have hnA : ¬ inA k (frame_id, node) := fun h => hlen h.2
        obtain ⟨ts, hts⟩ : ∃ ts, node.history_.getLast? = some ts := by
          cases hh : node.history_.getLast? with
          | none => exact absurd (List.getLast?_eq_none_iff.1 hh) hnode
          | some a => exact ⟨a, rfl⟩
        by_cases hc : (!eq.exist ||
            decide (eq.difference < (SIZE_MOD + cur - ts) % SIZE_MOD)) = true
        · obtain ⟨lt1, eq1, hrun, hL, hE⟩ :=
            ih lt (eq.set true frame_id ((SIZE_MOD + cur - ts) % SIZE_MOD)) hne1
          refine ⟨lt1, eq1, ?_, lessSpec_skip hnA hL, eqSpec_take hB hE⟩
          simp only [evictLoop, hev, hlen, hts, hc, if_true]
          simpa using hrun
        · obtain ⟨lt1, eq1, hrun, hL, hE⟩ := ih lt eq hne1
          refine ⟨lt1, eq1, ?_, lessSpec_skip hnA hL, ?_⟩
          · simp only [evictLoop, hev, hlen, hts, hc, if_true]
            simpa using hrun
          · have hex : eq.exist = true := by
              by_contra hx
              simp [hx] at hc
            exact eqSpec_keep hex hE
    · have hnA : ¬ inA k (frame_id, node) := fun h => hev h.1
      have hnB : ¬ inB k (frame_id, node) := fun h => hev h.1
      obtain ⟨lt1, eq1, hrun, hL, hE⟩ := ih lt eq hne1
      refine ⟨lt1, eq1, ?_, lessSpec_skip hnA hL, eqSpec_skip hnB hE⟩
      simp only [evictLoop, hev]
      simpa using hrun

/-! ## The representation invariant -/

theorem inv_size_le {s : LRUKReplacer} (h : Inv s) : s.node_store_.length ≤ 2 ^ 32 := by
  have := length_le_of_frameIds (s.node_store_.map Prod.fst) h.nodup (by
    intro x hx
    obtain ⟨e, he, rfl⟩ := List.mem_map.1 hx
    exact h.ids e he)
  simpa using this

theorem inv_construct (num_frames k : Nat) : Inv (LRUKReplacer.new num_frames k) := by
  constructor <;> simp [LRUKReplacer.new, evictableCount]

/-- The invariant survives an assignment that keeps a history non-empty, when the
counter is moved along with the flag. -/
theorem inv_assign {s : LRUKReplacer} (h : Inv s) {frame_id : Int} {old node : LRUKNode}
    (hfind : find s.node_store_ frame_id = some old) (hne : node.history_ ≠ [])
    (clock size : Nat)
    (hsize : size + (if old.is_evictable_ then 1 else 0)
      = s.curr_size_ + (if node.is_evictable_ then 1 else 0)) :
    Inv { s with
      node_store_ := assign s.node_store_ frame_id node
      current_timestamp_ := clock
      curr_size_ := size } := by
  have hmem := mem_of_find_eq_some hfind
  constructor
  · simpa [map_fst_assign] using h.nodup
  · intro e he
    rcases mem_assign he with he | he
    · exact h.ids e he
    · subst he
      exact h.ids (frame_id, old) hmem
  · intro e he
    rcases mem_assign he with he | he
    · exact h.nonempty e he
    · subst he
      exact hne
  · have hc := evictableCount_assign hfind node
    have hs := h.size
    simp only at hsize ⊢
    omega

theorem inv_removed {s : LRUKReplacer} (h : Inv s) {frame_id : Int} {node : LRUKNode}
    (hfind : find s.node_store_ frame_id = some node) (hev : node.is_evictable_ = true) :
    Inv (removed s frame_id) := by
  have hsub := erase_sublist s.node_store_ frame_id
  constructor
  · exact (hsub.map Prod.fst).nodup h.nodup
  · intro e he
    exact h.ids e (hsub.subset he)
  · intro e he
    exact h.nonempty e (hsub.subset he)
  · have hc := evictableCount_erase hfind
    have hs := h.size
    have hle := evictableCount_le_length s.node_store_
    have hlen := inv_size_le h
    simp only [hev, if_true] at hc
    simp only [bustub.removed, SIZE_MOD]
    omega

theorem Remove_eq_ok {s s1 : LRUKReplacer} {frame_id : Int} (h : Remove s frame_id = .ok s1) :
    ∃ node, find s.node_store_ frame_id = some node ∧
      ((node.is_evictable_ = false ∧ s1 = s) ∨
        (node.is_evictable_ = true ∧ s1 = removed s frame_id)) := by
  unfold Remove at h
  cases hf : find s.node_store_ frame_id with
  | none => simp [hf] at h
  | some node =>
    refine ⟨node, rfl, ?_⟩
    cases hev : node.is_evictable_ with
    | false =>
      simp [hf, hev] at h
      exact Or.inl ⟨rfl, h.symm⟩
    | true =>
      simp [hf, hev] at h
      exact Or.inr ⟨rfl, by rw [← h]; rfl⟩

theorem Remove_of_evictable {s : LRUKReplacer} {frame_id : Int} {node : LRUKNode}
    (hf : find s.node_store_ frame_id = some node) (hev : node.is_evictable_ = true) :
    Remove s frame_id = .ok (removed s frame_id) := by
  simp [Remove, hf, hev, removed]

theorem inv_Remove {s s1 : LRUKReplacer} (h : Inv s) {frame_id : Int}
    (hr : Remove s frame_id = .ok s1) : Inv s1 := by
  obtain ⟨node, hf, ⟨_, rfl⟩ | ⟨hev, rfl⟩⟩ := Remove_eq_ok hr
  · exact h
  · exact inv_removed h hf hev

theorem Evict_eq_ok {s s1 : LRUKReplacer} {r : Option Int} (h : Evict s = .ok (s1, r)) :
    (s1 = s ∧ r = none) ∨ ∃ frame_id, Remove s frame_id = .ok s1 ∧ r = some frame_id := by
  unfold Evict at h
  split at h
  · simp at h
    exact Or.inl ⟨h.1.symm, h.2.symm⟩
  · split at h
    · simp at h
    · rename_i lessThan_k equalTo_k _
      split at h
      · split at h
        · simp at h
        · rename_i s2 hrem
          simp at h
          exact Or.inr ⟨lessThan_k.frame_id, by rw [hrem, h.1], h.2.symm⟩
      · split at h
        · split at h
          · simp at h
          · rename_i s2 hrem
            simp at h
            exact Or.inr ⟨equalTo_k.frame_id, by rw [hrem, h.1], h.2.symm⟩
        · simp at h
          exact Or.inl ⟨h.1.symm, h.2.symm⟩

theorem inv_Evict {s s1 : LRUKReplacer} {r : Option Int} (h : Inv s)
    (he : Evict s = .ok (s1, r)) : Inv s1 := by
  rcases Evict_eq_ok he with ⟨rfl, _⟩ | ⟨frame_id, hr, _⟩
  · exact h
  · exact inv_Remove h hr

theorem inv_SetEvictable {s : LRUKReplacer} (h : Inv s) (frame_id : Int) (set_evictable : Bool) :
    Inv (SetEvictable s frame_id set_evictable) := by
  unfold bustub.SetEvictable
  cases hf : find s.node_store_ frame_id with
  | none => simpa using h
  | some node =>
    have hne := h.nonempty _ (mem_of_find_eq_some hf)
    have hs := h.size
    have hlen := inv_size_le h
    have hc := evictableCount_assign hf { node with is_evictable_ := set_evictable }
    have hle := evictableCount_le_length
      (assign s.node_store_ frame_id { node with is_evictable_ := set_evictable })
    rw [length_assign] at hle
    have key := @inv_assign s h frame_id node { node with is_evictable_ := set_evictable } hf hne
      s.current_timestamp_
    cases hev : node.is_evictable_ <;> cases set_evictable <;>
      simp only [hev, Bool.not_false, Bool.not_true, Bool.and_true, Bool.and_false,
        Bool.false_eq_true, if_true, if_false] <;> try exact h
    · simp only [hev, Bool.false_eq_true, if_true, if_false] at hc key
      exact key ((s.curr_size_ + 1) % SIZE_MOD) (by simp only [SIZE_MOD]; omega)
    · simp only [hev, Bool.false_eq_true, if_true, if_false] at hc key
      exact key ((SIZE_MOD + s.curr_size_ - 1) % SIZE_MOD) (by simp only [SIZE_MOD]; omega)

theorem inv_RecordAccess {s s1 : LRUKReplacer} (h : Inv s) {frame_id : Int}
    {access_type : AccessType} (hid : isFrameId frame_id)
    (hr : RecordAccess s frame_id access_type = .ok s1) : Inv s1 := by
  unfold bustub.RecordAccess at hr
  split at hr
  · simp at hr
  · cases hf : find s.node_store_ frame_id with
    | some node =>
      simp only [hf] at hr
      split at hr
      · split at hr
        · simp at hr
        · rename_i popped _
          simp only [Except.ok.injEq] at hr
          subst hr
          exact inv_assign h hf (by simp) _ _ (by simp)
      · simp only [Except.ok.injEq] at hr
        subst hr
        exact inv_assign h hf (by simp) _ _ (by simp)
    | none =>
      simp only [hf, Except.ok.injEq] at hr
      subst hr
      have hnot := find_eq_none_iff.1 hf
      constructor
      · simp only [emplace, hf, List.map_append, List.map_cons, List.map_nil]
        refine List.Nodup.append h.nodup (by simp) ?_
        simpa using hnot
      · intro e he
        simp only [emplace, hf, List.mem_append, List.mem_singleton] at he
        rcases he with he | he
        · exact h.ids e he
        · subst he
          exact hid
      · intro e he
        simp only [emplace, hf, List.mem_append, List.mem_singleton] at he
        rcases he with he | he
        · exact h.nonempty e he
        · subst he
          simp
      · simp [emplace, hf, evictableCount, List.countP_append, List.countP_cons]
        exact h.size

theorem inv_reorder {s : LRUKReplacer} (h : Inv s) {store : List (Int × LRUKNode)}
    (hp : store.Perm s.node_store_) : Inv { s with node_store_ := store } := by
  constructor
  · exact (hp.map Prod.fst).nodup_iff.2 h.nodup
  · intro e he
    exact h.ids e (hp.mem_iff.1 he)
  · intro e he
    exact h.nonempty e (hp.mem_iff.1 he)
  · simp only [evictableCount]
    rw [hp.countP_eq]
    exact h.size

/-- Every reachable state satisfies the representation invariant. -/
theorem reachable_inv {s : LRUKReplacer} (h : Reachable s) : Inv s := by
  induction h with
  | construct num_frames k _ _ => exact inv_construct num_frames k
  | recordAccess frame_id access_type _ hid hr ih => exact inv_RecordAccess ih hid hr
  | setEvictable frame_id set_evictable _ ih => exact inv_SetEvictable ih frame_id set_evictable
  | remove frame_id _ hr ih => exact inv_Remove ih hr
  | evict r _ he ih => exact inv_Evict ih he
  | reorder store _ hp ih => exact inv_reorder ih hp

/-! ## The example states are reachable -/

theorem reachable_pinnedOnly : Reachable pinnedOnly :=
  Reachable.recordAccess 0 .Unknown (Reachable.construct 1 1 (by decide) (by decide))
    (by decide) rfl

theorem reachable_onceTwice : Reachable onceTwice := by
  have h0 : Reachable (LRUKReplacer.new 2 2) := Reachable.construct 2 2 (by decide) (by decide)
  have h1 : Reachable
      { node_store_ := [(0, { history_ := [0], k_ := 2, fid_ := 0, is_evictable_ := false })]
        current_timestamp_ := 1, curr_size_ := 0, replacer_size_ := 2, k_ := 2 } :=
    Reachable.recordAccess 0 .Unknown h0 (by decide) rfl
  have h2 : Reachable
      { node_store_ :=
          [(0, { history_ := [0], k_ := 2, fid_ := 0, is_evictable_ := false }),
           (1, { history_ := [1], k_ := 2, fid_ := 1, is_evictable_ := false })]
        current_timestamp_ := 2, curr_size_ := 0, replacer_size_ := 2, k_ := 2 } :=
    Reachable.recordAccess 1 .Unknown h1 (by decide) rfl
  have h3 : Reachable
      { node_store_ :=
          [(0, { history_ := [0], k_ := 2, fid_ := 0, is_evictable_ := false }),
           (1, { history_ := [1, 2], k_ := 2, fid_ := 1, is_evictable_ := false })]
        current_timestamp_ := 3, curr_size_ := 0, replacer_size_ := 2, k_ := 2 } :=
    Reachable.recordAccess 1 .Unknown h2 (by decide) rfl
  exact Reachable.setEvictable 1 true (Reachable.setEvictable 0 true h3)

theorem reachable_firstAndLast : Reachable firstAndLast := by
  have h0 : Reachable (LRUKReplacer.new 2 2) := Reachable.construct 2 2 (by decide) (by decide)
  have h1 : Reachable
      { node_store_ := [(0, { history_ := [0], k_ := 2, fid_ := 0, is_evictable_ := false })]
        current_timestamp_ := 1, curr_size_ := 0, replacer_size_ := 2, k_ := 2 } :=
    Reachable.recordAccess 0 .Unknown h0 (by decide) rfl
  have h2 : Reachable
      { node_store_ :=
          [(0, { history_ := [0], k_ := 2, fid_ := 0, is_evictable_ := false }),
           (1, { history_ := [1], k_ := 2, fid_ := 1, is_evictable_ := false })]
        current_timestamp_ := 2, curr_size_ := 0, replacer_size_ := 2, k_ := 2 } :=
    Reachable.recordAccess 1 .Unknown h1 (by decide) rfl
  have h3 : Reachable
      { node_store_ :=
          [(0, { history_ := [0], k_ := 2, fid_ := 0, is_evictable_ := false }),
           (1, { history_ := [1, 2], k_ := 2, fid_ := 1, is_evictable_ := false })]
        current_timestamp_ := 3, curr_size_ := 0, replacer_size_ := 2, k_ := 2 } :=
    Reachable.recordAccess 1 .Unknown h2 (by decide) rfl
  have h4 : Reachable
      { node_store_ :=
          [(0, { history_ := [0, 3], k_ := 2, fid_ := 0, is_evictable_ := false }),
           (1, { history_ := [1, 2], k_ := 2, fid_ := 1, is_evictable_ := false })]
        current_timestamp_ := 4, curr_size_ := 0, replacer_size_ := 2, k_ := 2 } :=
    Reachable.recordAccess 0 .Unknown h3 (by decide) rfl
  exact Reachable.setEvictable 1 true (Reachable.setEvictable 0 true h4)

theorem reachable_twoWaiting : Reachable twoWaiting := by
  have h0 : Reachable (LRUKReplacer.new 3 2) := Reachable.construct 3 2 (by decide) (by decide)
  have h1 : Reachable
      { node_store_ := [(2, { history_ := [0], k_ := 2, fid_ := 2, is_evictable_ := false })]
        current_timestamp_ := 1, curr_size_ := 0, replacer_size_ := 3, k_ := 2 } :=
    Reachable.recordAccess 2 .Unknown h0 (by decide) rfl
  have h2 : Reachable
      { node_store_ := [(2, { history_ := [0, 1], k_ := 2, fid_ := 2, is_evictable_ := false })]
        current_timestamp_ := 2, curr_size_ := 0, replacer_size_ := 3, k_ := 2 } :=
    Reachable.recordAccess 2 .Unknown h1 (by decide) rfl
  have h3 : Reachable
      { node_store_ :=
          [(2, { history_ := [0, 1], k_ := 2, fid_ := 2, is_evictable_ := false }),
           (1, { history_ := [2], k_ := 2, fid_ := 1, is_evictable_ := false })]
        current_timestamp_ := 3, curr_size_ := 0, replacer_size_ := 3, k_ := 2 } :=
    Reachable.recordAccess 1 .Unknown h2 (by decide) rfl
  have h4 : Reachable
      { node_store_ :=
          [(2, { history_ := [0, 1], k_ := 2, fid_ := 2, is_evictable_ := false }),
           (1, { history_ := [2], k_ := 2, fid_ := 1, is_evictable_ := false }),
           (0, { history_ := [3], k_ := 2, fid_ := 0, is_evictable_ := false })]
        current_timestamp_ := 4, curr_size_ := 0, replacer_size_ := 3, k_ := 2 } :=
    Reachable.recordAccess 0 .Unknown h3 (by decide) rfl
  have h5 : Reachable
      { node_store_ :=
          [(2, { history_ := [0, 1], k_ := 2, fid_ := 2, is_evictable_ := true }),
           (1, { history_ := [2], k_ := 2, fid_ := 1, is_evictable_ := true }),
           (0, { history_ := [3], k_ := 2, fid_ := 0, is_evictable_ := true })]
        current_timestamp_ := 4, curr_size_ := 3, replacer_size_ := 3, k_ := 2 } :=
    Reachable.setEvictable 2 true
      (Reachable.setEvictable 1 true (Reachable.setEvictable 0 true h4))
  exact Reachable.reorder twoWaiting.node_store_ h5
    (List.reverse_perm
      ([(2, { history_ := [0, 1], k_ := 2, fid_ := 2, is_evictable_ := true }),
        (1, { history_ := [2], k_ := 2, fid_ := 1, is_evictable_ := true }),
        (0, { history_ := [3], k_ := 2, fid_ := 0, is_evictable_ := true })] :
        List (Int × LRUKNode)))

/-! ## What `Evict` returns -/

theorem Evict_of_size_zero {s : LRUKReplacer} (h : s.curr_size_ = 0) :
    Evict s = .ok (s, none) := by
  simp [Evict, h]

/-- On a state that satisfies the invariant and has a non-zero size, `Evict` removes and
returns an evictable frame; when group A is non-empty the frame is in group A and the
front of its history is the least among group A. -/
theorem evict_spec {s : LRUKReplacer} (hinv : Inv s) (hsize : s.curr_size_ ≠ 0) :
    ∃ f node, find s.node_store_ f = some node ∧ node.is_evictable_ = true ∧
      Evict s = .ok (removed s f, some f) ∧
      ((∃ e ∈ s.node_store_, inA s.k_ e) →
        node.history_.length < s.k_ ∧
        ∃ t, node.history_.head? = some t ∧
          ∀ e ∈ s.node_store_, inA s.k_ e → ∀ u, e.2.history_.head? = some u → t ≤ u) := by
  obtain ⟨lt1, eq1, hrun, hL, hE⟩ :=
    evictLoop_spec s.k_ s.current_timestamp_ s.node_store_ frame_.init frame_.init hinv.nonempty
  obtain ⟨hL1, hL2, _, hL4⟩ := hL
  obtain ⟨hE1, hE2⟩ := hE
  have hpos : 0 < evictableCount s.node_store_ := by
    have := hinv.size
    omega
  obtain ⟨e0, he0, hev0⟩ := List.countP_pos_iff.1 hpos
  by_cases hex : lt1.exist = true
  · rcases hL2 with h | ⟨e, hm, hA, hid, hhead⟩
    · rw [h] at hex
      simp [frame_.init] at hex
    · obtain ⟨f, node⟩ := e
      have hf : find s.node_store_ f = some node := find_eq_some_of_mem hinv.nodup hm
      refine ⟨f, node, hf, hA.1, ?_, ?_⟩
      · simp only at hid
        simp [Evict, hsize, hrun, hex, hid, Remove_of_evictable hf hA.1]
      · intro _
        exact ⟨hA.2, lt1.difference, hhead, hL4⟩
  · have hnoA : ¬ ∃ e ∈ s.node_store_, inA s.k_ e := by
      intro h
      exact hex (hL1.2 (Or.inr h))
    have hB : inB s.k_ e0 := ⟨hev0, fun hlen => hnoA ⟨e0, he0, hev0, hlen⟩⟩
    have hex2 : eq1.exist = true := hE1.2 (Or.inr ⟨e0, he0, hB⟩)
    rcases hE2 with h | ⟨e, hm, hB1, hid⟩
    · rw [h] at hex2
      simp [frame_.init] at hex2
    · obtain ⟨f, node⟩ := e
      have hf : find s.node_store_ f = some node := find_eq_some_of_mem hinv.nodup hm
      refine ⟨f, node, hf, hB1.1, ?_, ?_⟩
      · simp only at hid
        simp [Evict, hsize, hrun, hex, hex2, hid, Remove_of_evictable hf hB1.1]
      · intro h
        exact absurd h hnoA

/-- The effect of erasing an evictable record, on a state that satisfies the invariant. -/
theorem removed_effect {s : LRUKReplacer} (hinv : Inv s) {f : Int} {node : LRUKNode}
    (hf : find s.node_store_ f = some node) (hev : node.is_evictable_ = true) :
    find (removed s f).node_store_ f = none ∧ Size (removed s f) + 1 = Size s ∧
      (∀ g, g ≠ f → find (removed s f).node_store_ g = find s.node_store_ g) ∧
      (removed s f).current_timestamp_ = s.current_timestamp_ ∧
      (removed s f).replacer_size_ = s.replacer_size_ ∧ (removed s f).k_ = s.k_ := by
  refine ⟨find_erase_same hinv.nodup f, ?_, fun g hg => find_erase_other _ hg, rfl, rfl, rfl⟩
  have hpos : 0 < evictableCount s.node_store_ :=
    List.countP_pos_iff.2 ⟨(f, node), mem_of_find_eq_some hf, hev⟩
  have hs := hinv.size
  have hle := evictableCount_le_length s.node_store_
  have hlen := inv_size_le hinv
  simp only [Size, removed, SIZE_MOD]
  omega

/-! ## Claims on `Evict` -/

/-- Claim C1, evaluated on the code where it departs from the claim.  In the reachable
state `firstAndLast` (`k = 2`, clock 4) both frames are evictable and hold `k`
timestamps; the oldest timestamp in the window of frame 0 is 0 and that of frame 1
is 1, so frame 0 maximises clock minus oldest timestamp (4 against 3).  `Evict`
returns frame 1, in either iteration order of the map: it scores a frame by its
newest timestamp (`history_.back()`: 3 for frame 0, 2 for frame 1). -/
theorem Evict_scores_newest_access :
    Reachable firstAndLast ∧ 1 ≤ firstAndLast.k_ ∧
    (∀ e ∈ firstAndLast.node_store_,
      e.2.is_evictable_ = true ∧ e.2.history_.length = firstAndLast.k_) ∧
    find firstAndLast.node_store_ 0
      = some { history_ := [0, 3], k_ := 2, fid_ := 0, is_evictable_ := true } ∧
    find firstAndLast.node_store_ 1
      = some { history_ := [1, 2], k_ := 2, fid_ := 1, is_evictable_ := true } ∧
    firstAndLast.current_timestamp_ - 1 < firstAndLast.current_timestamp_ - 0 ∧
    Evict firstAndLast = .ok (removed firstAndLast 1, some 1) ∧
    Evict { firstAndLast with node_store_ := firstAndLast.node_store_.reverse }
      = .ok (removed { firstAndLast with node_store_ := firstAndLast.node_store_.reverse } 1,
          some 1) :=
  ⟨reachable_firstAndLast, by decide, by decide, rfl, rfl, by decide, rfl, rfl⟩

/-- Claim C2.  In every reachable state in which some evictable frame has fewer than `k`
recorded accesses, `Evict` returns a frame that is evictable and has fewer than `k`
recorded accesses; nothing is assumed on the timestamps of the other frames. -/
theorem Evict_prefers_fewer_than_k (s : LRUKReplacer) (hs : Reachable s)
    (a : Int) (nodeA : LRUKNode) (ha : find s.node_store_ a = some nodeA)
    (hev : nodeA.is_evictable_ = true) (hlen : nodeA.history_.length < s.k_) :
    ∃ s1 f node, Evict s = .ok (s1, some f) ∧ find s.node_store_ f = some node ∧
      node.is_evictable_ = true ∧ node.history_.length < s.k_ := by
  have hinv := reachable_inv hs
  have hmem := mem_of_find_eq_some ha
  have hsize : s.curr_size_ ≠ 0 := by
    have hpos : 0 < evictableCount s.node_store_ :=
      List.countP_pos_iff.2 ⟨(a, nodeA), hmem, hev⟩
    have := hinv.size
    omega
  obtain ⟨f, node, hf, hevf, hrun, hA⟩ := evict_spec hinv hsize
  exact ⟨removed s f, f, node, hrun, hf, hevf, (hA ⟨(a, nodeA), hmem, hev, hlen⟩).1⟩

/-- Claim C2 on the scenario of the spec: `k = 2`, frame 0 accessed once, frame 1
accessed twice, both evictable; `Evict` returns frame 0. -/
theorem Evict_prefers_fewer_than_k_witness :
    Reachable onceTwice ∧ Evict onceTwice = .ok (removed onceTwice 0, some 0) ∧
    ∃ s1 f node, Evict onceTwice = .ok (s1, some f) ∧
      find onceTwice.node_store_ f = some node ∧
      node.is_evictable_ = true ∧ node.history_.length < onceTwice.k_ :=
  ⟨reachable_onceTwice, rfl,
    Evict_prefers_fewer_than_k onceTwice reachable_onceTwice 0
      { history_ := [0], k_ := 2, fid_ := 0, is_evictable_ := true } rfl rfl (by decide)⟩

/-- Claim C3.  In every reachable state in which some evictable frame has fewer than `k`
recorded accesses, `Evict` returns an evictable frame with fewer than `k` recorded
accesses whose earliest recorded timestamp (the front of its history) is the smallest
among the evictable frames with fewer than `k` recorded accesses. -/
theorem Evict_earliest_first_access (s : LRUKReplacer) (hs : Reachable s)
    (a : Int) (nodeA : LRUKNode) (ha : find s.node_store_ a = some nodeA)
    (hev : nodeA.is_evictable_ = true) (hlen : nodeA.history_.length < s.k_) :
    ∃ s1 f node t, Evict s = .ok (s1, some f) ∧ find s.node_store_ f = some node ∧
      node.is_evictable_ = true ∧ node.history_.length < s.k_ ∧
      node.history_.head? = some t ∧
      ∀ g nodeG u, find s.node_store_ g = some nodeG → nodeG.is_evictable_ = true →
        nodeG.history_.length < s.k_ → nodeG.history_.head? = some u → t ≤ u := by
  have hinv := reachable_inv hs
  have hmem := mem_of_find_eq_some ha
  have hsize : s.curr_size_ ≠ 0 := by
    have hpos : 0 < evictableCount s.node_store_ :=
      List.countP_pos_iff.2 ⟨(a, nodeA), hmem, hev⟩
    have := hinv.size
    omega
  obtain ⟨f, node, hf, hevf, hrun, hA⟩ := evict_spec hinv hsize
  obtain ⟨hlenf, t, ht, hmin⟩ := hA ⟨(a, nodeA), hmem, hev, hlen⟩
  refine ⟨removed s f, f, node, t, hrun, hf, hevf, hlenf, ht, ?_⟩
  intro g nodeG u hg hevg hleng hu
  exact hmin (g, nodeG) (mem_of_find_eq_some hg) ⟨hevg, hleng⟩ u hu

/-- Claim C3 on an example: frames 0 and 1 have one access each (at 3 and at 2), frame 2
has `k = 2` accesses (at 0 and 1); `Evict` returns frame 1. -/
theorem Evict_earliest_first_access_witness :
    Reachable twoWaiting ∧ Evict twoWaiting = .ok (removed twoWaiting 1, some 1) ∧
    ∃ s1 f node t, Evict twoWaiting = .ok (s1, some f) ∧
      find twoWaiting.node_store_ f = some node ∧
      node.is_evictable_ = true ∧ node.history_.length < twoWaiting.k_ ∧
      node.history_.head? = some t ∧
      ∀ g nodeG u, find twoWaiting.node_store_ g = some nodeG → nodeG.is_evictable_ = true →
        nodeG.history_.length < twoWaiting.k_ → nodeG.history_.head? = some u → t ≤ u :=
  ⟨reachable_twoWaiting, rfl,
    Evict_earliest_first_access twoWaiting reachable_twoWaiting 0
      { history_ := [3], k_ := 2, fid_ := 0, is_evictable_ := true } rfl rfl (by decide)⟩

/-- The two ways `Evict` ends on a state that satisfies the invariant. -/
theorem evict_cases {s : LRUKReplacer} (hinv : Inv s) :
    (s.curr_size_ = 0 ∧ Evict s = .ok (s, none)) ∨
    (∃ f node, find s.node_store_ f = some node ∧ node.is_evictable_ = true ∧
      Evict s = .ok (removed s f, some f)) := by
  by_cases hsize : s.curr_size_ = 0
  · exact Or.inl ⟨hsize, Evict_of_size_zero hsize⟩
  · obtain ⟨f, node, hf, hev, hrun, _⟩ := evict_spec hinv hsize
    exact Or.inr ⟨f, node, hf, hev, hrun⟩

/-- Claim C4.  In every reachable state `Evict` returns; it returns none if and only if
no tracked frame is evictable; and a frame it returns had a record and was marked
evictable before the call. -/
theorem Evict_none_iff_no_evictable (s : LRUKReplacer) (hs : Reachable s) :
    (∃ s1 r, Evict s = .ok (s1, r)) ∧
    ((∃ s1, Evict s = .ok (s1, none)) ↔
      ∀ f node, find s.node_store_ f = some node → node.is_evictable_ = false) ∧
    (∀ s1 f, Evict s = .ok (s1, some f) →
      ∃ node, find s.node_store_ f = some node ∧ node.is_evictable_ = true) := by
  have hinv := reachable_inv hs
  rcases evict_cases hinv with ⟨hsize, hrun⟩ | ⟨f0, node0, hf0, hev0, hrun⟩
  · have hnone : ∀ f node, find s.node_store_ f = some node → node.is_evictable_ = false := by
      intro f node hf
      have hcount : evictableCount s.node_store_ = 0 := by
        rw [← hinv.size]; exact hsize
      have := List.countP_eq_zero.1 hcount (f, node) (mem_of_find_eq_some hf)
      simpa using this
    refine ⟨⟨s, none, hrun⟩, ⟨fun _ => hnone, fun _ => ⟨s, hrun⟩⟩, ?_⟩
    intro s1 f h
    rw [hrun] at h
    simp at h
  · refine ⟨⟨_, _, hrun⟩, ⟨?_, ?_⟩, ?_⟩
    · rintro ⟨s1, h⟩
      rw [hrun] at h
      simp at h
    · intro h
      have := h f0 node0 hf0
      rw [hev0] at this
      cases this
    · intro s1 f h
      rw [hrun] at h
      simp only [Except.ok.injEq, Prod.mk.injEq, Option.some.injEq] at h
      exact ⟨node0, h.2 ▸ hf0, hev0⟩

/-- Claim C4 on two examples: with no evictable frame `Evict` returns none, with
evictable frames it returns one of them. -/
theorem Evict_none_iff_no_evictable_witness :
    Reachable pinnedOnly ∧ Evict pinnedOnly = .ok (pinnedOnly, none) ∧
    ((∃ s1 r, Evict pinnedOnly = .ok (s1, r)) ∧
      ((∃ s1, Evict pinnedOnly = .ok (s1, none)) ↔
        ∀ f node, find pinnedOnly.node_store_ f = some node → node.is_evictable_ = false) ∧
      (∀ s1 f, Evict pinnedOnly = .ok (s1, some f) →
        ∃ node, find pinnedOnly.node_store_ f = some node ∧ node.is_evictable_ = true)) ∧
    ∃ node, find onceTwice.node_store_ 0 = some node ∧ node.is_evictable_ = true :=
  ⟨reachable_pinnedOnly, rfl, Evict_none_iff_no_evictable pinnedOnly reachable_pinnedOnly,
    (Evict_none_iff_no_evictable onceTwice reachable_onceTwice).2.2 (removed onceTwice 0) 0 rfl⟩

/-- Claim C5.  In every reachable state `Evict` returns.  When it returns frame `f`, the
state after the call has no record for `f`, `Size` is one less than before, the record
of every other frame is as before, and the clock (as the capacity and `k`) is unchanged.
When it returns none the state is unchanged. -/
theorem Evict_frame_effect (s : LRUKReplacer) (hs : Reachable s) :
    (∃ s1 r, Evict s = .ok (s1, r)) ∧
    (∀ s1 f, Evict s = .ok (s1, some f) →
      find s1.node_store_ f = none ∧ Size s1 + 1 = Size s ∧
      (∀ g, g ≠ f → find s1.node_store_ g = find s.node_store_ g) ∧
      s1.current_timestamp_ = s.current_timestamp_ ∧
      s1.replacer_size_ = s.replacer_size_ ∧ s1.k_ = s.k_) ∧
    (∀ s1, Evict s = .ok (s1, none) → s1 = s) := by
  have hinv := reachable_inv hs
  rcases evict_cases hinv with ⟨_, hrun⟩ | ⟨f0, node0, hf0, hev0, hrun⟩
  · refine ⟨⟨s, none, hrun⟩, ?_, ?_⟩
    · intro s1 f h
      rw [hrun] at h
      simp at h
    · intro s1 h
      rw [hrun] at h
      simp only [Except.ok.injEq, Prod.mk.injEq] at h
      exact h.1.symm
  · refine ⟨⟨_, _, hrun⟩, ?_, ?_⟩
    · intro s1 f h
      rw [hrun] at h
      simp only [Except.ok.injEq, Prod.mk.injEq, Option.some.injEq] at h
      obtain ⟨rfl, rfl⟩ := h
      exact removed_effect hinv hf0 hev0
    · intro s1 h
      rw [hrun] at h
      simp at h

/-- Claim C5 on an example: evicting from `onceTwice` returns frame 0, leaves the record
of frame 1 and the clock as they were and takes `Size` from 2 to 1. -/
theorem Evict_frame_effect_witness :
    Reachable onceTwice ∧
    (find (removed onceTwice 0).node_store_ 0 = none ∧
      Size (removed onceTwice 0) + 1 = Size onceTwice ∧
      (∀ g, g ≠ 0 → find (removed onceTwice 0).node_store_ g = find onceTwice.node_store_ g) ∧
      (removed onceTwice 0).current_timestamp_ = onceTwice.current_timestamp_ ∧
      (removed onceTwice 0).replacer_size_ = onceTwice.replacer_size_ ∧
      (removed onceTwice 0).k_ = onceTwice.k_) :=
  ⟨reachable_onceTwice,
    (Evict_frame_effect onceTwice reachable_onceTwice).2.1 (removed onceTwice 0) 0 rfl⟩

/-! ## Claims on `Remove` -/

/-- Claim C6, evaluated on the code where it departs from the claim.  On a replacer that
was just constructed no frame has a record, and `Remove` of any frame id fails the
assertion `it != node_store_.end()` instead of returning. -/
theorem Remove_without_record_aborts (num_frames k : Nat) (frame_id : Int) :
    find (LRUKReplacer.new num_frames k).node_store_ frame_id = none ∧
    Remove (LRUKReplacer.new num_frames k) frame_id = .error .assertion_failure :=
  ⟨rfl, rfl⟩

/-- Claim C7, evaluated on the code where it departs from the claim.  In the reachable
state `pinnedOnly` frame 0 has a record and is not evictable; `Remove(0)` returns
normally, with the state as it was, and reports nothing. -/
theorem Remove_pinned_returns_normally :
    Reachable pinnedOnly ∧
    find pinnedOnly.node_store_ 0
      = some { history_ := [0], k_ := 1, fid_ := 0, is_evictable_ := false } ∧
    Remove pinnedOnly 0 = .ok pinnedOnly :=
  ⟨reachable_pinnedOnly, rfl, rfl⟩

/-- Claim C8.  For every state and every frame that has a record and is not evictable,
`Remove` returns with the state (all records, clock and size) as it was. -/
theorem Remove_pinned_unchanged (s : LRUKReplacer) (frame_id : Int) (node : LRUKNode)
    (hf : find s.node_store_ frame_id = some node) (hev : node.is_evictable_ = false) :
    Remove s frame_id = .ok s := by
  simp [Remove, hf, hev]

/-- Claim C8 on an example: removing the pinned frame 0 of `pinnedOnly`. -/
theorem Remove_pinned_unchanged_witness :
    find pinnedOnly.node_store_ 0
      = some { history_ := [0], k_ := 1, fid_ := 0, is_evictable_ := false } ∧
    Remove pinnedOnly 0 = .ok pinnedOnly :=
  ⟨rfl, Remove_pinned_unchanged pinnedOnly 0
    { history_ := [0], k_ := 1, fid_ := 0, is_evictable_ := false } rfl rfl⟩

/-- Claim C9.  In every reachable state, for every frame that has a record and is
evictable, `Remove` returns normally, the state after it has no record for the frame,
`Size` is one less than before, and every other record and the clock (as the capacity
and `k`) are unchanged. -/
theorem Remove_evictable_effect (s : LRUKReplacer) (hs : Reachable s) (frame_id : Int)
    (node : LRUKNode) (hf : find s.node_store_ frame_id = some node)
    (hev : node.is_evictable_ = true) :
    ∃ s1, Remove s frame_id = .ok s1 ∧
      find s1.node_store_ frame_id = none ∧ Size s1 + 1 = Size s ∧
      (∀ g, g ≠ frame_id → find s1.node_store_ g = find s.node_store_ g) ∧
      s1.current_timestamp_ = s.current_timestamp_ ∧
      s1.replacer_size_ = s.replacer_size_ ∧ s1.k_ = s.k_ :=
  ⟨removed s frame_id, Remove_of_evictable hf hev, removed_effect (reachable_inv hs) hf hev⟩

/-- Claim C9 on an example: removing the evictable frame 1 of `onceTwice`. -/
theorem Remove_evictable_effect_witness :
    Reachable onceTwice ∧
    find onceTwice.node_store_ 1
      = some { history_ := [1, 2], k_ := 2, fid_ := 1, is_evictable_ := true } ∧
    ∃ s1, Remove onceTwice 1 = .ok s1 ∧
      find s1.node_store_ 1 = none ∧ Size s1 + 1 = Size onceTwice ∧
      (∀ g, g ≠ 1 → find s1.node_store_ g = find onceTwice.node_store_ g) ∧
      s1.current_timestamp_ = onceTwice.current_timestamp_ ∧
      s1.replacer_size_ = onceTwice.replacer_size_ ∧ s1.k_ = onceTwice.k_ :=
  ⟨reachable_onceTwice, rfl,
    Remove_evictable_effect onceTwice reachable_onceTwice 1
      { history_ := [1, 2], k_ := 2, fid_ := 1, is_evictable_ := true } rfl rfl⟩

/-! ## Claims on `SetEvictable` -/

theorem SetEvictable_of_none {s : LRUKReplacer} {frame_id : Int}
    (hf : find s.node_store_ frame_id = none) (set_evictable : Bool) :
    SetEvictable s frame_id set_evictable = s := by
  simp [SetEvictable, hf]

theorem SetEvictable_of_same {s : LRUKReplacer} {frame_id : Int} {node : LRUKNode}
    (hf : find s.node_store_ frame_id = some node) :
    SetEvictable s frame_id node.is_evictable_ = s := by
  cases hev : node.is_evictable_ <;> simp [SetEvictable, hf, hev]

theorem SetEvictable_of_ne {s : LRUKReplacer} {frame_id : Int} {node : LRUKNode}
    (hf : find s.node_store_ frame_id = some node) {set_evictable : Bool}
    (hne : node.is_evictable_ ≠ set_evictable) :
    SetEvictable s frame_id set_evictable =
      { s with
        node_store_ := assign s.node_store_ frame_id { node with is_evictable_ := set_evictable }
        curr_size_ :=
          (if set_evictable then s.curr_size_ + 1 else SIZE_MOD + s.curr_size_ - 1) % SIZE_MOD } := by
  cases hev : node.is_evictable_ <;> cases set_evictable <;>
    simp_all [SetEvictable]

/-- In a state that satisfies the invariant the size counter does not wrap when a flag
is flipped. -/
theorem inv_size_bounds {s : LRUKReplacer} (hinv : Inv s) {frame_id : Int} {node : LRUKNode}
    (hf : find s.node_store_ frame_id = some node) :
    s.curr_size_ ≤ 2 ^ 32 ∧ (node.is_evictable_ = false → s.curr_size_ + 1 ≤ 2 ^ 32) ∧
      (node.is_evictable_ = true → 0 < s.curr_size_) := by
  have hs := hinv.size
  have hlen := inv_size_le hinv
  have hle := evictableCount_le_length s.node_store_
  refine ⟨by omega, ?_, ?_⟩
  · intro hev
    have hc := evictableCount_assign hf { node with is_evictable_ := true }
    have hle1 := evictableCount_le_length
      (assign s.node_store_ frame_id { node with is_evictable_ := true })
    rw [length_assign] at hle1
    simp only [hev, Bool.false_eq_true, if_true, if_false] at hc
    omega
  · intro hev
    have hpos : 0 < evictableCount s.node_store_ :=
      List.countP_pos_iff.2 ⟨(frame_id, node), mem_of_find_eq_some hf, hev⟩
    omega

/-- Claim C10.  For every state `s`, frame id `f` and boolean `b`: `SetEvictable(f, b)`
leaves the state unchanged when `f` has no record or when the flag of `f` is `b` already;
otherwise it sets the flag of `f` to `b` and leaves the history of `f`, every other
record and the clock unchanged, and `Size` changes by `+1` (`b = true`) or `-1`
(`b = false`): in `size_t` arithmetic on every state, and exactly on every state that
satisfies the representation invariant `Inv`.  Calling it twice gives the same state as
calling it once. -/
theorem SetEvictable_effect (s : LRUKReplacer) (f : Int) (b : Bool) :
    (find s.node_store_ f = none → SetEvictable s f b = s) ∧
    (∀ node, find s.node_store_ f = some node → node.is_evictable_ = b →
      SetEvictable s f b = s) ∧
    (∀ node, find s.node_store_ f = some node → node.is_evictable_ ≠ b →
      find (SetEvictable s f b).node_store_ f = some { node with is_evictable_ := b } ∧
      (∀ g, g ≠ f → find (SetEvictable s f b).node_store_ g = find s.node_store_ g) ∧
      (SetEvictable s f b).current_timestamp_ = s.current_timestamp_ ∧
      (SetEvictable s f b).replacer_size_ = s.replacer_size_ ∧
      (SetEvictable s f b).k_ = s.k_ ∧
      Size (SetEvictable s f b)
        = (if b then Size s + 1 else SIZE_MOD + Size s - 1) % SIZE_MOD ∧
      (Inv s → (b = true → Size (SetEvictable s f b) = Size s + 1) ∧
        (b = false → Size (SetEvictable s f b) + 1 = Size s))) ∧
    SetEvictable (SetEvictable s f b) f b = SetEvictable s f b := by
  refine ⟨fun hf => SetEvictable_of_none hf b, ?_, ?_, ?_⟩
  · intro node hf hev
    subst hev
    exact SetEvictable_of_same hf
  · intro node hf hne
    rw [SetEvictable_of_ne hf hne]
    refine ⟨find_assign_same hf _, fun g hg => find_assign_other _ hg _, rfl, rfl, rfl, rfl, ?_⟩
    intro hinv
    obtain ⟨hb, hfalse, htrue⟩ := inv_size_bounds hinv hf
    constructor
    · intro hbt
      subst hbt
      have hev : node.is_evictable_ = false := by simpa using hne
      have := hfalse hev
      simp only [Size, SIZE_MOD, if_true]
      omega
    · intro hbf
      subst hbf
      have hev : node.is_evictable_ = true := by simpa using hne
      have := htrue hev
      simp only [Size, SIZE_MOD, Bool.false_eq_true, if_false]
      omega
  · cases hf : find s.node_store_ f with
    | none => rw [SetEvictable_of_none hf]; exact SetEvictable_of_none hf b
    | some node =>
      by_cases hev : node.is_evictable_ = b
      · subst hev
        rw [SetEvictable_of_same hf]; exact SetEvictable_of_same hf
      · have hf1 : find (SetEvictable s f b).node_store_ f
            = some { node with is_evictable_ := b } := by
          rw [SetEvictable_of_ne hf hev]
          exact find_assign_same hf _
        exact SetEvictable_of_same hf1

/-- Claim C10 on an example: marking the pinned frame 0 of `pinnedOnly` evictable sets
its flag and takes `Size` from 0 to 1. -/
theorem SetEvictable_effect_witness :
    find pinnedOnly.node_store_ 0
      = some { history_ := [0], k_ := 1, fid_ := 0, is_evictable_ := false } ∧
    Inv pinnedOnly ∧
    find (SetEvictable pinnedOnly 0 true).node_store_ 0
      = some { history_ := [0], k_ := 1, fid_ := 0, is_evictable_ := true } ∧
    Size (SetEvictable pinnedOnly 0 true) = Size pinnedOnly + 1 :=
  ⟨rfl, reachable_inv reachable_pinnedOnly,
    ((SetEvictable_effect pinnedOnly 0 true).2.2.1
      { history_ := [0], k_ := 1, fid_ := 0, is_evictable_ := false } rfl (by decide)).1,
    (((SetEvictable_effect pinnedOnly 0 true).2.2.1
      { history_ := [0], k_ := 1, fid_ := 0, is_evictable_ := false } rfl
      (by decide)).2.2.2.2.2.2 (reachable_inv reachable_pinnedOnly)).1 rfl⟩

/-! ## The shape of the state after a call -/

theorem RecordAccess_eq_ok {s s1 : LRUKReplacer} {frame_id : Int} {access_type : AccessType}
    (h : RecordAccess s frame_id access_type = .ok s1) :
    size_t_cast frame_id < s.replacer_size_ ∧ s1 = recorded s frame_id := by
  unfold RecordAccess at h
  split at h
  · simp at h
  · rename_i hg
    refine ⟨not_not.1 hg, ?_⟩
    unfold recorded
    cases hf : find s.node_store_ frame_id with
    | some node =>
      simp only [hf] at h ⊢
      split at h
      · rename_i hlen
        split at h
        · simp at h
        · rename_i x popped hh
          have hlen2 : popped.length + 1 = node.k_ := by simpa [hh] using hlen
          simp only [Except.ok.injEq] at h
          rw [← h]
          simp [hh, hlen2]
      · rename_i hlen
        simp only [Except.ok.injEq] at h
        rw [← h]
        simp [hlen]
    | none =>
      simp only [hf, Except.ok.injEq] at h ⊢
      rw [← h]
      simp [emplace, hf]

theorem RecordAccess_of_guard {s : LRUKReplacer} (hne : ∀ e ∈ s.node_store_, e.2.history_ ≠ [])
    {frame_id : Int} (hg : size_t_cast frame_id < s.replacer_size_) (access_type : AccessType) :
    RecordAccess s frame_id access_type = .ok (recorded s frame_id) := by
  have key : ∃ s1, RecordAccess s frame_id access_type = .ok s1 := by
    unfold RecordAccess
    simp only [hg, not_true_eq_false, if_false]
    cases hf : find s.node_store_ frame_id with
    | none => exact ⟨_, rfl⟩
    | some node =>
      have hnode := hne _ (mem_of_find_eq_some hf)
      simp only
      split
      · cases hh : node.history_ with
        | nil => exact absurd hh hnode
        | cons x popped => exact ⟨_, rfl⟩
      · exact ⟨_, rfl⟩
  obtain ⟨s1, h1⟩ := key
  rw [h1, (RecordAccess_eq_ok h1).2]

theorem mem_recorded {s : LRUKReplacer} {frame_id : Int} {e : Int × LRUKNode}
    (he : e ∈ (recorded s frame_id).node_store_) :
    e ∈ s.node_store_ ∨
      (e.1 = frame_id ∧ e.2.k_ = s.k_ ∧ e.2.history_ = [s.current_timestamp_] ∧
        find s.node_store_ frame_id = none) ∨
      ∃ node, find s.node_store_ frame_id = some node ∧ e.1 = frame_id ∧ e.2.k_ = node.k_ ∧
        e.2.history_ =
          (if node.history_.length = node.k_ then node.history_.tail else node.history_)
            ++ [s.current_timestamp_] := by
  unfold recorded at he
  cases hf : find s.node_store_ frame_id with
  | some node =>
    simp only [hf] at he
    rcases mem_assign he with h | h
    · exact Or.inl h
    · subst h
      exact Or.inr (Or.inr ⟨node, rfl, rfl, rfl, rfl⟩)
  | none =>
    simp only [hf, List.mem_append, List.mem_singleton] at he
    rcases he with h | h
    · exact Or.inl h
    · subst h
      exact Or.inr (Or.inl ⟨rfl, rfl, rfl, rfl⟩)

theorem inv2_construct (num_frames k : Nat) : Inv2 (LRUKReplacer.new num_frames k) := by
  constructor <;> simp [LRUKReplacer.new]

theorem inv2_recorded {s : LRUKReplacer} (h : Inv2 s) {frame_id : Int}
    (hg : size_t_cast frame_id < s.replacer_size_) : Inv2 (recorded s frame_id) := by
  constructor
  · intro e he
    rcases mem_recorded he with h1 | ⟨h1, _⟩ | ⟨node, _, h1, _⟩
    · exact h.below e h1
    · rw [h1]; exact hg
    · rw [h1]; exact hg
  · intro e he
    rcases mem_recorded he with h1 | ⟨_, h1, _⟩ | ⟨node, hf, _, h1, _⟩
    · exact h.node_k e h1
    · exact h1
    · rw [h1]; exact h.node_k _ (mem_of_find_eq_some hf)
  · intro hk e he
    rcases mem_recorded he with h1 | ⟨_, _, h1, _⟩ | ⟨node, hf, _, _, h1⟩
    · exact h.length_le hk e h1
    · rw [h1]; exact hk
    · have hmem := mem_of_find_eq_some hf
      have hnk : node.k_ = s.k_ := h.node_k _ hmem
      have hle : node.history_.length ≤ s.k_ := h.length_le hk _ hmem
      have hk1 : 1 ≤ s.k_ := hk
      rw [h1, hnk]
      show _ ≤ s.k_
      split
      · rename_i heq
        simp only [List.length_append, List.length_tail, List.length_singleton]
        omega
      · rename_i hneq
        simp only [List.length_append, List.length_singleton]
        omega

theorem inv2_of_sublist {s s1 : LRUKReplacer} (h : Inv2 s)
    (hsub : ∀ e ∈ s1.node_store_, e ∈ s.node_store_)
    (hn : s1.replacer_size_ = s.replacer_size_) (hk : s1.k_ = s.k_) : Inv2 s1 := by
  constructor
  · intro e he
    rw [hn]; exact h.below e (hsub e he)
  · intro e he
    rw [hk]; exact h.node_k e (hsub e he)
  · intro hk1 e he
    rw [hk] at hk1 ⊢
    exact h.length_le hk1 e (hsub e he)

theorem inv2_SetEvictable {s : LRUKReplacer} (h : Inv2 s) (frame_id : Int)
    (set_evictable : Bool) : Inv2 (SetEvictable s frame_id set_evictable) := by
  cases hf : find s.node_store_ frame_id with
  | none => rw [SetEvictable_of_none hf]; exact h
  | some node =>
    by_cases hev : node.is_evictable_ = set_evictable
    · subst hev
      rw [SetEvictable_of_same hf]; exact h
    · rw [SetEvictable_of_ne hf hev]
      have hmem := mem_of_find_eq_some hf
      constructor
      · intro e he
        rcases mem_assign he with h1 | h1
        · exact h.below e h1
        · subst h1; exact h.below (frame_id, node) hmem
      · intro e he
        rcases mem_assign he with h1 | h1
        · exact h.node_k e h1
        · subst h1; exact h.node_k (frame_id, node) hmem
      · intro hk e he
        rcases mem_assign he with h1 | h1
        · exact h.length_le hk e h1
        · subst h1; exact h.length_le hk (frame_id, node) hmem

theorem inv2_Remove {s s1 : LRUKReplacer} (h : Inv2 s) {frame_id : Int}
    (hr : Remove s frame_id = .ok s1) : Inv2 s1 := by
  obtain ⟨node, hf, ⟨_, rfl⟩ | ⟨hev, rfl⟩⟩ := Remove_eq_ok hr
  · exact h
  · exact inv2_of_sublist h (fun e he => (erase_sublist _ _).subset he) rfl rfl

/-- Every reachable state satisfies the second part of the invariant. -/
theorem reachable_inv2 {s : LRUKReplacer} (h : Reachable s) : Inv2 s := by
  induction h with
  | construct num_frames k _ _ => exact inv2_construct num_frames k
  | recordAccess frame_id access_type _ hid hr ih =>
    obtain ⟨hg, rfl⟩ := RecordAccess_eq_ok hr
    exact inv2_recorded ih hg
  | setEvictable frame_id set_evictable _ ih => exact inv2_SetEvictable ih frame_id set_evictable
  | remove frame_id _ hr ih => exact inv2_Remove ih hr
  | evict r _ he ih =>
    rcases Evict_eq_ok he with ⟨rfl, _⟩ | ⟨frame_id, hr, _⟩
    · exact ih
    · exact inv2_Remove ih hr
  | reorder store _ hp ih =>
    exact inv2_of_sublist ih (fun e he => hp.mem_iff.1 he) rfl rfl

/-! ## Claims on the invariants and on `RecordAccess` -/

theorem size_t_cast_of_nonneg {frame_id : Int} (h0 : 0 ≤ frame_id)
    (h1 : frame_id < (2 : Int) ^ 64) : size_t_cast frame_id = frame_id.toNat := by
  unfold size_t_cast
  rw [Int.emod_eq_of_lt h0 h1]

theorem size_t_cast_of_neg {frame_id : Int} (hid : isFrameId frame_id) (h0 : frame_id < 0) :
    2 ^ 64 - 2 ^ 31 ≤ size_t_cast frame_id := by
  unfold size_t_cast
  unfold isFrameId at hid
  omega

theorem size_t_cast_injective {f g : Int} (hf : isFrameId f) (hg : isFrameId g)
    (h : size_t_cast f = size_t_cast g) : f = g := by
  unfold size_t_cast at h
  unfold isFrameId at hf hg
  omega

/-- Claim C11.  In every reachable state the keys of the map are distinct and `Size`
equals the number of records whose evictable flag is true. -/
theorem Size_eq_evictableCount (s : LRUKReplacer) (hs : Reachable s) :
    (s.node_store_.map Prod.fst).Nodup ∧ Size s = evictableCount s.node_store_ :=
  ⟨(reachable_inv hs).nodup, (reachable_inv hs).size⟩

/-- Claim C11 on an example: both records of `onceTwice` are evictable and `Size` is 2. -/
theorem Size_eq_evictableCount_witness :
    Reachable onceTwice ∧ Size onceTwice = 2 ∧
    ((onceTwice.node_store_.map Prod.fst).Nodup ∧
      Size onceTwice = evictableCount onceTwice.node_store_) :=
  ⟨reachable_onceTwice, rfl, Size_eq_evictableCount onceTwice reachable_onceTwice⟩

/-- Claim C12 as stated fails for a capacity above `2 ^ 64 - 2 ^ 31`: after
`LRUKReplacer(2 ^ 64 - 1, 2)` the call `RecordAccess(-2)` passes the check
(`static_cast<size_t>(-2)` is `2 ^ 64 - 2`) and frame `-2` is tracked, outside
`[0, capacity)`. -/
theorem tracked_id_negative :
    RecordAccess (LRUKReplacer.new (2 ^ 64 - 1) 2) (-2) .Unknown = .ok negativeTracked ∧
    Reachable negativeTracked ∧
    (∃ node, find negativeTracked.node_store_ (-2) = some node) ∧
    ¬ ∀ f node, find negativeTracked.node_store_ f = some node →
        0 ≤ f ∧ f < negativeTracked.replacer_size_ := by
  have hrun : RecordAccess (LRUKReplacer.new (2 ^ 64 - 1) 2) (-2) .Unknown
      = .ok negativeTracked := rfl
  refine ⟨hrun, ?_, ⟨_, rfl⟩, ?_⟩
  · exact Reachable.recordAccess (-2) .Unknown
      (Reachable.construct (2 ^ 64 - 1) 2 (by decide) (by decide)) (by decide) hrun
  · intro h
    have hfind : find negativeTracked.node_store_ (-2)
        = some { history_ := [0], k_ := 2, fid_ := -2, is_evictable_ := false } := rfl
    have := (h (-2) _ hfind).1
    omega

/-- Claim C12, amended.  In every reachable state every tracked frame id `f` passes the
check of `RecordAccess`, `static_cast<size_t>(f) < capacity`; when the capacity is at most
`2 ^ 64 - 2 ^ 31` this means `0 <= f < capacity`; and `Size` is at most the capacity. -/
theorem tracked_ids_below_capacity (s : LRUKReplacer) (hs : Reachable s) :
    (∀ f node, find s.node_store_ f = some node →
      size_t_cast f < s.replacer_size_ ∧
      (s.replacer_size_ ≤ 2 ^ 64 - 2 ^ 31 → 0 ≤ f ∧ f < s.replacer_size_)) ∧
    Size s ≤ s.replacer_size_ := by
  have hinv := reachable_inv hs
  have hinv2 := reachable_inv2 hs
  constructor
  · intro f node hf
    have hmem := mem_of_find_eq_some hf
    have hlt : size_t_cast f < s.replacer_size_ := hinv2.below _ hmem
    have hid : isFrameId f := hinv.ids _ hmem
    refine ⟨hlt, fun hcap => ?_⟩
    have h0 : 0 ≤ f := by
      by_contra hneg
      have := size_t_cast_of_neg hid (not_le.1 hneg)
      omega
    have h64 : f < (2 : Int) ^ 64 := by
      unfold isFrameId at hid
      omega
    rw [size_t_cast_of_nonneg h0 h64] at hlt
    omega
  · have hnd : ((s.node_store_.map Prod.fst).map size_t_cast).Nodup := by
      refine List.Nodup.map_on ?_ hinv.nodup
      intro x hx y hy hxy
      obtain ⟨e1, he1, rfl⟩ := List.mem_map.1 hx
      obtain ⟨e2, he2, rfl⟩ := List.mem_map.1 hy
      exact size_t_cast_injective (hinv.ids e1 he1) (hinv.ids e2 he2) hxy
    have hsub : ((s.node_store_.map Prod.fst).map size_t_cast).toFinset
        ⊆ Finset.range s.replacer_size_ := by
      intro x hx
      obtain ⟨k, hk, rfl⟩ := List.mem_map.1 (List.mem_toFinset.1 hx)
      obtain ⟨e, he, rfl⟩ := List.mem_map.1 hk
      exact Finset.mem_range.2 (hinv2.below e he)
    have hcard := Finset.card_le_card hsub
    rw [List.toFinset_card_of_nodup hnd, Finset.card_range] at hcard
    have hle := evictableCount_le_length s.node_store_
    have hsize := hinv.size
    simp only [List.length_map] at hcard
    unfold Size
    omega

/-- Claim C12 (amended) on an example: in `onceTwice` (capacity 2) the tracked frames are
0 and 1 and `Size` is 2. -/
theorem tracked_ids_below_capacity_witness :
    Reachable onceTwice ∧
    ((∀ f node, find onceTwice.node_store_ f = some node →
      size_t_cast f < onceTwice.replacer_size_ ∧
      (onceTwice.replacer_size_ ≤ 2 ^ 64 - 2 ^ 31 → 0 ≤ f ∧ f < onceTwice.replacer_size_)) ∧
    Size onceTwice ≤ onceTwice.replacer_size_) :=
  ⟨reachable_onceTwice, tracked_ids_below_capacity onceTwice reachable_onceTwice⟩

theorem find_append_singleton (store : List (Int × LRUKNode)) (frame_id : Int)
    (node : LRUKNode) (g : Int) :
    find (store ++ [(frame_id, node)]) g =
      match find store g with
      | some n => some n
      | none => if frame_id = g then some node else none := by
  induction store with
  | nil => simp [find]
  | cons e rest ih =>
    obtain ⟨fid, n0⟩ := e
    by_cases hfid : fid = g
    · simp [find, hfid]
    · simp [find, hfid, ih]

/-- Claim C13 as stated fails for a capacity above `2 ^ 64 - 2 ^ 31`: on the replacer
`LRUKReplacer(2 ^ 64 - 1, 2)` the negative frame id `-2` is not rejected.
`static_cast<size_t>(-2)` is `2 ^ 64 - 2`, which is less than the capacity, so
`RecordAccess(-2)` passes the assertion and returns. -/
theorem negative_id_accepted :
    Reachable (LRUKReplacer.new (2 ^ 64 - 1) 2) ∧ isFrameId (-2) ∧ (-2 : Int) < 0 ∧
    size_t_cast (-2) = 2 ^ 64 - 2 ∧
    size_t_cast (-2) < (LRUKReplacer.new (2 ^ 64 - 1) 2).replacer_size_ ∧
    RecordAccess (LRUKReplacer.new (2 ^ 64 - 1) 2) (-2) .Unknown = .ok negativeTracked ∧
    RecordAccess (LRUKReplacer.new (2 ^ 64 - 1) 2) (-2) .Unknown
      ≠ .error .assertion_failure := by
  have hrun : RecordAccess (LRUKReplacer.new (2 ^ 64 - 1) 2) (-2) .Unknown
      = .ok negativeTracked := rfl
  refine ⟨Reachable.construct (2 ^ 64 - 1) 2 (by decide) (by decide), by decide, by decide,
    by decide, by decide, hrun, ?_⟩
  rw [hrun]
  intro h
  cases h

/-- Claim C13, amended.  For every state with capacity `n` and every frame id `f`:
`RecordAccess(f)` fails its assertion if and only if `static_cast<size_t>(f)` is not less
than `n`.  So every `f >= n` is rejected, and a negative `f` is rejected whenever
`n <= 2 ^ 64 - 2 ^ 31`; and in a reachable state the call returns for every `f` with
`0 <= f < n`. -/
theorem RecordAccess_guard (s : LRUKReplacer) (f : Int) (a : AccessType) :
    (RecordAccess s f a = .error .assertion_failure ↔ ¬ size_t_cast f < s.replacer_size_) ∧
    (isFrameId f → f < 0 → s.replacer_size_ ≤ 2 ^ 64 - 2 ^ 31 →
      RecordAccess s f a = .error .assertion_failure) ∧
    (isFrameId f → (s.replacer_size_ : Int) ≤ f →
      RecordAccess s f a = .error .assertion_failure) ∧
    (Reachable s → isFrameId f → 0 ≤ f → f < s.replacer_size_ →
      ∃ s1, RecordAccess s f a = .ok s1) := by
  have hiff : RecordAccess s f a = .error .assertion_failure
      ↔ ¬ size_t_cast f < s.replacer_size_ := by
    constructor
    · intro h hg
      unfold RecordAccess at h
      simp only [hg, not_true_eq_false, if_false] at h
      split at h
      · split at h
        · split at h
          · simp at h
          · simp at h
        · simp at h
      · simp at h
    · intro hg
      simp [RecordAccess, hg]
  refine ⟨hiff, ?_, ?_, ?_⟩
  · intro hid hneg hcap
    apply hiff.2
    have := size_t_cast_of_neg hid hneg
    omega
  · intro hid hge
    apply hiff.2
    have h0 : 0 ≤ f := le_trans (Int.ofNat_nonneg _) hge
    have h64 : f < (2 : Int) ^ 64 := by
      unfold isFrameId at hid
      omega
    rw [size_t_cast_of_nonneg h0 h64]
    omega
  · intro hs hid h0 hlt
    have h64 : f < (2 : Int) ^ 64 := by
      unfold isFrameId at hid
      omega
    have hg : size_t_cast f < s.replacer_size_ := by
      rw [size_t_cast_of_nonneg h0 h64]
      omega
    exact ⟨_, RecordAccess_of_guard (reachable_inv hs).nonempty hg a⟩

/-- Claim C13 (amended) on an example with capacity 2: frame ids 2 and -1 are rejected,
frame id 1 is accepted. -/
theorem RecordAccess_guard_witness :
    Reachable onceTwice ∧
    RecordAccess onceTwice 2 .Unknown = .error .assertion_failure ∧
    RecordAccess onceTwice (-1) .Unknown = .error .assertion_failure ∧
    ∃ s1, RecordAccess onceTwice 1 .Unknown = .ok s1 :=
  ⟨reachable_onceTwice,
    (RecordAccess_guard onceTwice 2 .Unknown).2.2.1 (by decide) (by decide),
    (RecordAccess_guard onceTwice (-1) .Unknown).2.1 (by decide) (by decide) (by decide),
    (RecordAccess_guard onceTwice 1 .Unknown).2.2.2 reachable_onceTwice (by decide) (by decide)
      (by decide)⟩

/-- Claim C14.  In every reachable state (for `k >= 1`, and for `k = 0` as well), with
clock value `t`, for every
frame id `f` that passes the check of `RecordAccess` (so for every `0 <= f < capacity`):
`RecordAccess(f, kind)` returns; the history of `f` is then the old history, without its
oldest entry if it held `k` entries, with `t` appended (a new record has the history `t`
alone and is not evictable); the flag of `f`, `Size` and every other record are unchanged;
the clock is `t + 1` in `size_t` arithmetic, so `t + 1` unless it wraps at `2 ^ 64`; and
the result does not depend on the access kind. -/
theorem RecordAccess_effect (s : LRUKReplacer) (hs : Reachable s)
    (f : Int) (hg : size_t_cast f < s.replacer_size_) (kind : AccessType) :
    ∃ s1, RecordAccess s f kind = .ok s1 ∧
      (∀ node, find s.node_store_ f = some node →
        find s1.node_store_ f = some
          { node with
            history_ :=
              (if node.history_.length = s.k_ then node.history_.tail else node.history_)
                ++ [s.current_timestamp_] }) ∧
      (find s.node_store_ f = none →
        find s1.node_store_ f = some
          { history_ := [s.current_timestamp_], k_ := s.k_, fid_ := f,
            is_evictable_ := false }) ∧
      (∀ g, g ≠ f → find s1.node_store_ g = find s.node_store_ g) ∧
      s1.current_timestamp_ = (s.current_timestamp_ + 1) % SIZE_MOD ∧
      (s.current_timestamp_ + 1 < SIZE_MOD →
        s1.current_timestamp_ = s.current_timestamp_ + 1) ∧
      Size s1 = Size s ∧ s1.replacer_size_ = s.replacer_size_ ∧ s1.k_ = s.k_ ∧
      ∀ kind2, RecordAccess s f kind2 = RecordAccess s f kind := by
  have hinv := reachable_inv hs
  have hinv2 := reachable_inv2 hs
  refine ⟨recorded s f, RecordAccess_of_guard hinv.nonempty hg kind, ?_, ?_, ?_, rfl, ?_,
    rfl, rfl, rfl, fun _ => rfl⟩
  · intro node hf
    have hnk : node.k_ = s.k_ := hinv2.node_k _ (mem_of_find_eq_some hf)
    simp only [recorded, hf, hnk]
    exact find_assign_same hf _
  · intro hf
    simp only [recorded, hf]
    rw [find_append_singleton, hf]
    simp
  · intro g hne
    cases hf : find s.node_store_ f with
    | some node =>
      simp only [recorded, hf]
      exact find_assign_other _ hne _
    | none =>
      simp only [recorded, hf]
      rw [find_append_singleton]
      cases hfg : find s.node_store_ g with
      | some n => rfl
      | none => simp [Ne.symm hne]
  · intro hlt
    exact Nat.mod_eq_of_lt hlt

/-- Claim C14 on an example: in `onceTwice` (`k = 2`, clock 3) `RecordAccess(1)` turns the
history `1, 2` of frame 1 into `2, 3` and moves the clock to 4. -/
theorem RecordAccess_effect_witness :
    Reachable onceTwice ∧
    ∃ s1, RecordAccess onceTwice 1 .Unknown = .ok s1 ∧
      find s1.node_store_ 1
        = some { history_ := [2, 3], k_ := 2, fid_ := 1, is_evictable_ := true } ∧
      s1.current_timestamp_ = 4 ∧ Size s1 = Size onceTwice :=
  ⟨reachable_onceTwice,
    match RecordAccess_effect onceTwice reachable_onceTwice 1 (by decide) .Unknown with
    | ⟨s1, hrun, hsome, _, _, _, hclock, hsize, _⟩ =>
      ⟨s1, hrun,
        hsome { history_ := [1, 2], k_ := 2, fid_ := 1, is_evictable_ := true } rfl,
        hclock (by decide), hsize⟩⟩

/-- Claim C16 as stated fails: on a replacer with capacity 2 the second call of the
sequence, `RecordAccess(2)`, fails the assertion `frame_id < replacer_size_`, so the
sequence does not complete. -/
theorem scenario_capacity_two_aborts :
    (∃ s1, RecordAccess (LRUKReplacer.new 2 2) 1 .Unknown = .ok s1 ∧
      RecordAccess s1 2 .Unknown = .error .assertion_failure) ∧
    run (LRUKReplacer.new 2 2) []
      [.RecordAccess 1 .Unknown, .RecordAccess 2 .Unknown, .RecordAccess 1 .Unknown,
       .SetEvictable 1 true, .SetEvictable 2 true] = .error .assertion_failure :=
  ⟨⟨_, rfl, rfl⟩, rfl⟩

/-- Claim C16, amended to capacity 3.  On a replacer constructed with capacity 3 and
`k = 2` the sequence `RecordAccess(1)`, `RecordAccess(2)`, `RecordAccess(1)`,
`SetEvictable(1, true)`, `SetEvictable(2, true)` completes and the `Evict` that follows
returns frame 2. -/
theorem scenario_capacity_three_evicts_two :
    ∃ s5 log s6,
      run (LRUKReplacer.new 3 2) []
        [.RecordAccess 1 .Unknown, .RecordAccess 2 .Unknown, .RecordAccess 1 .Unknown,
         .SetEvictable 1 true, .SetEvictable 2 true] = .ok (s5, log) ∧
      Evict s5 = .ok (s6, some 2) :=
  ⟨_, _, _, rfl, rfl⟩

/-! ## Call sequences: which frames have a record -/

theorem accessedSinceDropped_append_nil (log : List Event) (g : Int) :
    accessedSinceDropped (log ++ []) g = accessedSinceDropped log g := by
  simp

theorem accessedSinceDropped_accessed (log : List Event) (f g : Int) :
    accessedSinceDropped (log ++ [.accessed f]) g
      = if f = g then true else accessedSinceDropped log g := by
  simp [accessedSinceDropped, List.foldl_append]

theorem accessedSinceDropped_removed (log : List Event) (f g : Int) :
    accessedSinceDropped (log ++ [.removed f]) g
      = if f = g then false else accessedSinceDropped log g := by
  simp [accessedSinceDropped, List.foldl_append]

theorem accessedSinceDropped_evicted (log : List Event) (f g : Int) :
    accessedSinceDropped (log ++ [.evicted f]) g
      = if f = g then false else accessedSinceDropped log g := by
  simp [accessedSinceDropped, List.foldl_append]

theorem find_recorded_same (s : LRUKReplacer) (f : Int) :
    (find (recorded s f).node_store_ f).isSome = true := by
  cases hf : find s.node_store_ f with
  | some node =>
    simp only [recorded, hf]
    rw [find_assign_same hf]
    rfl
  | none =>
    simp only [recorded, hf]
    rw [find_append_singleton, hf]
    simp

theorem find_recorded_other (s : LRUKReplacer) {f g : Int} (hne : g ≠ f) :
    find (recorded s f).node_store_ g = find s.node_store_ g := by
  cases hf : find s.node_store_ f with
  | some node =>
    simp only [recorded, hf]
    exact find_assign_other _ hne _
  | none =>
    simp only [recorded, hf]
    rw [find_append_singleton]
    cases hfg : find s.node_store_ g with
    | some n => rfl
    | none => simp [Ne.symm hne]

theorem find_SetEvictable_isSome (s : LRUKReplacer) (f : Int) (b : Bool) (g : Int) :
    (find (SetEvictable s f b).node_store_ g).isSome = (find s.node_store_ g).isSome := by
  cases hf : find s.node_store_ f with
  | none => rw [SetEvictable_of_none hf]
  | some node =>
    by_cases hev : node.is_evictable_ = b
    · subst hev
      rw [SetEvictable_of_same hf]
    · rw [SetEvictable_of_ne hf hev]
      by_cases hg : g = f
      · subst hg
        simp only
        rw [find_assign_same hf, hf]
        rfl
      · simp only
        rw [find_assign_other _ hg]

/-- One call keeps the state reachable and keeps the records in step with the log. -/
theorem exec_tracks {s s1 : LRUKReplacer} {c : Call} {events : List Event}
    (hs : Reachable s) (hc : c.typed) (hx : exec s c = .ok (s1, events)) (log : List Event)
    (ht : ∀ g, (find s.node_store_ g).isSome = accessedSinceDropped log g) :
    Reachable s1 ∧
      ∀ g, (find s1.node_store_ g).isSome = accessedSinceDropped (log ++ events) g := by
  have hinv := reachable_inv hs
  cases c with
  | RecordAccess f a =>
    simp only [exec] at hx
    cases hr : RecordAccess s f a with
    | error e => simp [hr] at hx
    | ok s2 =>
      simp only [hr, Except.ok.injEq, Prod.mk.injEq] at hx
      obtain ⟨rfl, rfl⟩ := hx
      refine ⟨Reachable.recordAccess f a hs hc hr, fun g => ?_⟩
      obtain ⟨_, rfl⟩ := RecordAccess_eq_ok hr
      rw [accessedSinceDropped_accessed]
      by_cases hg : f = g
      · subst hg
        simp [find_recorded_same]
      · rw [find_recorded_other s (Ne.symm hg), ht g]
        simp [hg]
  | SetEvictable f b =>
    simp only [exec, Except.ok.injEq, Prod.mk.injEq] at hx
    obtain ⟨rfl, rfl⟩ := hx
    refine ⟨Reachable.setEvictable f b hs, fun g => ?_⟩
    rw [find_SetEvictable_isSome, ht g]
    simp
  | Remove f =>
    simp only [exec] at hx
    cases hr : Remove s f with
    | error e => simp [hr] at hx
    | ok s2 =>
      obtain ⟨node, hf, ⟨hev, h2⟩ | ⟨hev, h2⟩⟩ := Remove_eq_ok hr
      · simp only [hr, hf, hev, Bool.false_eq_true, if_false, Except.ok.injEq,
          Prod.mk.injEq] at hx
        obtain ⟨rfl, rfl⟩ := hx
        refine ⟨Reachable.remove f hs hr, fun g => ?_⟩
        rw [h2, ht g]
        simp
      · simp only [hr, hf, hev, if_true, Except.ok.injEq, Prod.mk.injEq] at hx
        obtain ⟨rfl, rfl⟩ := hx
        refine ⟨Reachable.remove f hs hr, fun g => ?_⟩
        rw [h2, accessedSinceDropped_removed]
        by_cases hg : f = g
        · subst hg
          simp [removed, find_erase_same hinv.nodup]
        · simp only [hg, if_false]
          rw [← ht g]
          simp only [removed]
          rw [find_erase_other _ (Ne.symm hg)]
  | Evict =>
    simp only [exec] at hx
    rcases evict_cases hinv with ⟨_, hrun⟩ | ⟨f, node, hf, hev, hrun⟩
    · simp only [hrun, Except.ok.injEq, Prod.mk.injEq] at hx
      obtain ⟨rfl, rfl⟩ := hx
      refine ⟨hs, fun g => ?_⟩
      rw [ht g]
      simp
    · simp only [hrun, Except.ok.injEq, Prod.mk.injEq] at hx
      obtain ⟨rfl, rfl⟩ := hx
      refine ⟨Reachable.evict (some f) hs hrun, fun g => ?_⟩
      rw [accessedSinceDropped_evicted]
      by_cases hg : f = g
      · subst hg
        simp [removed, find_erase_same hinv.nodup]
      · simp only [hg, if_false]
        rw [← ht g]
        simp only [removed]
        rw [find_erase_other _ (Ne.symm hg)]

theorem run_tracks (cs : List Call) :
    ∀ (s : LRUKReplacer) (log : List Event) (s1 : LRUKReplacer) (log1 : List Event),
      Reachable s → (∀ c ∈ cs, c.typed) → run s log cs = .ok (s1, log1) →
      (∀ g, (find s.node_store_ g).isSome = accessedSinceDropped log g) →
      Reachable s1 ∧ ∀ g, (find s1.node_store_ g).isSome = accessedSinceDropped log1 g := by
  induction cs with
  | nil =>
    intro s log s1 log1 hs _ hrun ht
    simp only [run, Except.ok.injEq, Prod.mk.injEq] at hrun
    obtain ⟨rfl, rfl⟩ := hrun
    exact ⟨hs, ht⟩
  | cons c cs ih =>
    intro s log s1 log1 hs hc hrun ht
    simp only [run] at hrun
    cases hx : exec s c with
    | error e => simp [hx] at hrun
    | ok r =>
      obtain ⟨s2, events⟩ := r
      simp only [hx] at hrun
      obtain ⟨hs2, ht2⟩ := exec_tracks hs (hc c (List.mem_cons_self _ _)) hx log ht
      exact ih s2 (log ++ events) s1 log1 hs2
        (fun c1 h1 => hc c1 (List.mem_cons_of_mem _ h1)) hrun ht2

theorem Remove_params {s s1 : LRUKReplacer} {f : Int} (hr : Remove s f = .ok s1) :
    s1.k_ = s.k_ ∧ s1.replacer_size_ = s.replacer_size_ := by
  obtain ⟨node, _, ⟨_, rfl⟩ | ⟨_, rfl⟩⟩ := Remove_eq_ok hr
  · exact ⟨rfl, rfl⟩
  · exact ⟨rfl, rfl⟩

theorem SetEvictable_params (s : LRUKReplacer) (f : Int) (b : Bool) :
    (SetEvictable s f b).k_ = s.k_ ∧
      (SetEvictable s f b).replacer_size_ = s.replacer_size_ := by
  cases hf : find s.node_store_ f with
  | none => rw [SetEvictable_of_none hf]; exact ⟨rfl, rfl⟩
  | some node =>
    by_cases hev : node.is_evictable_ = b
    · subst hev
      rw [SetEvictable_of_same hf]; exact ⟨rfl, rfl⟩
    · rw [SetEvictable_of_ne hf hev]; exact ⟨rfl, rfl⟩

/-- No call changes `k` or the capacity. -/
theorem exec_params {s s1 : LRUKReplacer} {c : Call} {events : List Event}
    (hx : exec s c = .ok (s1, events)) :
    s1.k_ = s.k_ ∧ s1.replacer_size_ = s.replacer_size_ := by
  cases c with
  | RecordAccess f a =>
    simp only [exec] at hx
    cases hr : RecordAccess s f a with
    | error e => simp [hr] at hx
    | ok s2 =>
      simp only [hr, Except.ok.injEq, Prod.mk.injEq] at hx
      rw [← hx.1, (RecordAccess_eq_ok hr).2]
      exact ⟨rfl, rfl⟩
  | SetEvictable f b =>
    simp only [exec, Except.ok.injEq, Prod.mk.injEq] at hx
    rw [← hx.1]
    exact SetEvictable_params s f b
  | Remove f =>
    simp only [exec] at hx
    cases hr : Remove s f with
    | error e => simp [hr] at hx
    | ok s2 =>
      have h2 := Remove_params hr
      simp only [hr] at hx
      split at hx
      · simp only [Except.ok.injEq, Prod.mk.injEq] at hx
        rw [← hx.1]; exact h2
      · simp only [Except.ok.injEq, Prod.mk.injEq] at hx
        rw [← hx.1]; exact h2
  | Evict =>
    simp only [exec] at hx
    cases he : Evict s with
    | error e => simp [he] at hx
    | ok r =>
      obtain ⟨s2, r2⟩ := r
      have h2 : s2.k_ = s.k_ ∧ s2.replacer_size_ = s.replacer_size_ := by
        rcases Evict_eq_ok he with ⟨rfl, _⟩ | ⟨f, hr, _⟩
        · exact ⟨rfl, rfl⟩
        · exact Remove_params hr
      simp only [he] at hx
      cases r2 with
      | none =>
        simp only [Except.ok.injEq, Prod.mk.injEq] at hx
        rw [← hx.1]; exact h2
      | some f =>
        simp only [Except.ok.injEq, Prod.mk.injEq] at hx
        rw [← hx.1]; exact h2

theorem run_params (cs : List Call) :
    ∀ (s : LRUKReplacer) (log : List Event) (s1 : LRUKReplacer) (log1 : List Event),
      run s log cs = .ok (s1, log1) →
      s1.k_ = s.k_ ∧ s1.replacer_size_ = s.replacer_size_ := by
  induction cs with
  | nil =>
    intro s log s1 log1 hrun
    simp only [run, Except.ok.injEq, Prod.mk.injEq] at hrun
    rw [← hrun.1]
    exact ⟨rfl, rfl⟩
  | cons c cs ih =>
    intro s log s1 log1 hrun
    simp only [run] at hrun
    cases hx : exec s c with
    | error e => simp [hx] at hrun
    | ok r =>
      obtain ⟨s2, events⟩ := r
      simp only [hx] at hrun
      have h1 := ih s2 (log ++ events) s1 log1 hrun
      have h2 := exec_params hx
      exact ⟨h1.1.trans h2.1, h1.2.trans h2.2⟩

/-- Claim C17.  After every sequence of calls that return, on a replacer constructed with
`k >= 1`: every history holds at least 1 and at most `k` timestamps, and a frame has a
record exactly when it has been accessed since it was last evicted or removed (or since
construction). -/
theorem history_bounds_and_records (num_frames k : Nat) (hn : num_frames < SIZE_MOD)
    (hk : k < SIZE_MOD) (hk1 : 1 ≤ k) (cs : List Call) (hc : ∀ c ∈ cs, c.typed)
    (s : LRUKReplacer) (log : List Event)
    (hrun : run (LRUKReplacer.new num_frames k) [] cs = .ok (s, log)) :
    s.k_ = k ∧
    (∀ f node, find s.node_store_ f = some node →
      1 ≤ node.history_.length ∧ node.history_.length ≤ k) ∧
    (∀ f, (find s.node_store_ f).isSome = accessedSinceDropped log f) := by
  obtain ⟨hs, ht⟩ := run_tracks cs (LRUKReplacer.new num_frames k) [] s log
    (Reachable.construct num_frames k hn hk) hc hrun (fun g => rfl)
  have hinv := reachable_inv hs
  have hinv2 := reachable_inv2 hs
  have hsk : s.k_ = k := (run_params cs _ _ _ _ hrun).1
  refine ⟨hsk, ?_, ht⟩
  intro f node hf
  have hmem := mem_of_find_eq_some hf
  have hne := hinv.nonempty _ hmem
  have hle := hinv2.length_le (by rw [hsk]; exact hk1) _ hmem
  rw [hsk] at hle
  refine ⟨?_, hle⟩
  cases hh : node.history_ with
  | nil => exact absurd hh hne
  | cons a t => simp

/-- Claim C17 on an example: after `RecordAccess(0)`, `RecordAccess(1)`,
`SetEvictable(0, true)`, `Evict()` (which returns 0) and `RecordAccess(1)` frame 1 has a
record with 2 timestamps and frame 0 has none. -/
theorem history_bounds_and_records_witness :
    run (LRUKReplacer.new 2 2) [] evictThenAccess
      = .ok (afterEviction, [.accessed 0, .accessed 1, .evicted 0, .accessed 1]) ∧
    (find afterEviction.node_store_ 0).isSome = false ∧
    (afterEviction.k_ = 2 ∧
      (∀ f node, find afterEviction.node_store_ f = some node →
        1 ≤ node.history_.length ∧ node.history_.length ≤ 2) ∧
      (∀ f, (find afterEviction.node_store_ f).isSome
        = accessedSinceDropped [.accessed 0, .accessed 1, .evicted 0, .accessed 1] f)) :=
  ⟨rfl, rfl,
    history_bounds_and_records 2 2 (by decide) (by decide) (by decide) evictThenAccess
      (by decide) afterEviction [.accessed 0, .accessed 1, .evicted 0, .accessed 1] rfl⟩

/-! ## Call sequences: the order of the recorded accesses -/

theorem exec_reachable {s s1 : LRUKReplacer} {c : Call} {events : List Event}
    (hs : Reachable s) (hc : c.typed) (hx : exec s c = .ok (s1, events)) : Reachable s1 := by
  cases c with
  | RecordAccess f a =>
    simp only [exec] at hx
    cases hr : RecordAccess s f a with
    | error e => simp [hr] at hx
    | ok s2 =>
      simp only [hr, Except.ok.injEq, Prod.mk.injEq] at hx
      rw [← hx.1]
      exact Reachable.recordAccess f a hs hc hr
  | SetEvictable f b =>
    simp only [exec, Except.ok.injEq, Prod.mk.injEq] at hx
    rw [← hx.1]
    exact Reachable.setEvictable f b hs
  | Remove f =>
    simp only [exec] at hx
    cases hr : Remove s f with
    | error e => simp [hr] at hx
    | ok s2 =>
      have h2 := Reachable.remove f hs hr
      simp only [hr] at hx
      split at hx
      · simp only [Except.ok.injEq, Prod.mk.injEq] at hx
        rw [← hx.1]; exact h2
      · simp only [Except.ok.injEq, Prod.mk.injEq] at hx
        rw [← hx.1]; exact h2
  | Evict =>
    simp only [exec] at hx
    cases he : Evict s with
    | error e => simp [he] at hx
    | ok r =>
      obtain ⟨s2, r2⟩ := r
      have h2 := Reachable.evict r2 hs he
      simp only [he] at hx
      cases r2 with
      | none =>
        simp only [Except.ok.injEq, Prod.mk.injEq] at hx
        rw [← hx.1]; exact h2
      | some f =>
        simp only [Except.ok.injEq, Prod.mk.injEq] at hx
        rw [← hx.1]; exact h2

theorem invClock_construct (num_frames k : Nat) : InvClock (LRUKReplacer.new num_frames k) := by
  constructor <;> simp [LRUKReplacer.new]

/-- The order survives every change that keeps the clock and brings in no key or history
that was not there. -/
theorem invClock_of_entries {s s1 : LRUKReplacer} (h : InvClock s)
    (hent : ∀ e ∈ s1.node_store_,
      ∃ e0 ∈ s.node_store_, e0.1 = e.1 ∧ e0.2.history_ = e.2.history_)
    (hclock : s1.current_timestamp_ = s.current_timestamp_) : InvClock s1 := by
  constructor
  · intro e he t ht
    obtain ⟨e0, he0, _, hh⟩ := hent e he
    rw [hclock]
    exact h.below_clock e0 he0 t (hh ▸ ht)
  · intro e he
    obtain ⟨e0, he0, _, hh⟩ := hent e he
    rw [← hh]
    exact h.increasing e0 he0
  · intro e1 he1 e2 he2 t ht1 ht2
    obtain ⟨a1, ha1, hk1, hh1⟩ := hent e1 he1
    obtain ⟨a2, ha2, hk2, hh2⟩ := hent e2 he2
    rw [← hk1, ← hk2]
    exact h.disjoint a1 ha1 a2 ha2 t (hh1 ▸ ht1) (hh2 ▸ ht2)

theorem invClock_removed {s : LRUKReplacer} (h : InvClock s) (f : Int) :
    InvClock (removed s f) :=
  invClock_of_entries h
    (fun e he => ⟨e, (erase_sublist _ _).subset he, rfl, rfl⟩) rfl

theorem invClock_Remove {s s1 : LRUKReplacer} (h : InvClock s) {f : Int}
    (hr : Remove s f = .ok s1) : InvClock s1 ∧ s1.current_timestamp_ = s.current_timestamp_ := by
  obtain ⟨node, _, ⟨_, rfl⟩ | ⟨_, rfl⟩⟩ := Remove_eq_ok hr
  · exact ⟨h, rfl⟩
  · exact ⟨invClock_removed h f, rfl⟩

theorem invClock_SetEvictable {s : LRUKReplacer} (h : InvClock s) (f : Int) (b : Bool) :
    InvClock (SetEvictable s f b) ∧
      (SetEvictable s f b).current_timestamp_ = s.current_timestamp_ := by
  cases hf : find s.node_store_ f with
  | none => rw [SetEvictable_of_none hf]; exact ⟨h, rfl⟩
  | some node =>
    by_cases hev : node.is_evictable_ = b
    · subst hev
      rw [SetEvictable_of_same hf]; exact ⟨h, rfl⟩
    · rw [SetEvictable_of_ne hf hev]
      refine ⟨invClock_of_entries h ?_ rfl, rfl⟩
      intro e he
      rcases mem_assign he with h1 | h1
      · exact ⟨e, h1, rfl, rfl⟩
      · subst h1
        exact ⟨(f, node), mem_of_find_eq_some hf, rfl, rfl⟩

theorem invClock_recorded {s : LRUKReplacer} (h : InvClock s) (f : Int)
    (hclock : s.current_timestamp_ + 1 < SIZE_MOD) :
    InvClock (recorded s f) ∧
      (recorded s f).current_timestamp_ = s.current_timestamp_ + 1 := by
  have hc : (recorded s f).current_timestamp_ = s.current_timestamp_ + 1 :=
    Nat.mod_eq_of_lt hclock
  have hmemhist : ∀ e ∈ (recorded s f).node_store_, ∀ t ∈ e.2.history_,
      t = s.current_timestamp_ ∧ e.1 = f ∨
        ∃ e0 ∈ s.node_store_, e0.1 = e.1 ∧ t ∈ e0.2.history_ := by
    intro e he t ht
    rcases mem_recorded he with h1 | ⟨hk, _, hh, _⟩ | ⟨node, hf, hk, _, hh⟩
    · exact Or.inr ⟨e, h1, rfl, ht⟩
    · rw [hh] at ht
      exact Or.inl ⟨by simpa using ht, hk⟩
    · rw [hh] at ht
      rcases List.mem_append.1 ht with h2 | h2
      · refine Or.inr ⟨(f, node), mem_of_find_eq_some hf, hk.symm, ?_⟩
        split at h2
        · exact List.mem_of_mem_tail h2
        · exact h2
      · exact Or.inl ⟨by simpa using h2, hk⟩
  refine ⟨⟨?_, ?_, ?_⟩, hc⟩
  · intro e he t ht
    rw [hc]
    rcases hmemhist e he t ht with ⟨h1, _⟩ | ⟨e0, he0, _, h1⟩
    · omega
    · have := h.below_clock e0 he0 t h1
      omega
  · intro e he
    rcases mem_recorded he with h1 | ⟨_, _, hh, _⟩ | ⟨node, hf, _, _, hh⟩
    · exact h.increasing e h1
    · rw [hh]; simp
    · have hmem := mem_of_find_eq_some hf
      have hinc := h.increasing _ hmem
      have hbel := h.below_clock _ hmem
      rw [hh]
      refine List.pairwise_append.2 ⟨?_, by simp, ?_⟩
      · split
        · exact hinc.sublist (List.tail_sublist _)
        · exact hinc
      · intro a ha b hb
        have hb2 : b = s.current_timestamp_ := by simpa using hb
        rw [hb2]
        refine hbel a ?_
        split at ha
        · exact List.mem_of_mem_tail ha
        · exact ha
  · intro e1 he1 e2 he2 t ht1 ht2
    rcases hmemhist e1 he1 t ht1 with ⟨h1, hk1⟩ | ⟨a1, ha1, hk1, h1⟩
    · rcases hmemhist e2 he2 t ht2 with ⟨_, hk2⟩ | ⟨a2, ha2, _, h2⟩
      · rw [hk1, hk2]
      · have := h.below_clock a2 ha2 t h2
        omega
    · rcases hmemhist e2 he2 t ht2 with ⟨h2, _⟩ | ⟨a2, ha2, hk2, h2⟩
      · have := h.below_clock a1 ha1 t h1
        omega
      · rw [← hk1, ← hk2]
        exact h.disjoint a1 ha1 a2 ha2 t h1 h2

theorem accessCount_append (log events : List Event) :
    accessCount (log ++ events) = accessCount log + accessCount events := by
  simp [accessCount, List.countP_append]

/-- One call keeps the clock equal to the number of recorded accesses and keeps the
order, as long as the clock does not wrap. -/
theorem exec_clock {s s1 : LRUKReplacer} {c : Call} {events : List Event}
    (hs : Reachable s) (hx : exec s c = .ok (s1, events)) (log : List Event)
    (hno : accessCount (log ++ events) < SIZE_MOD)
    (hcount : s.current_timestamp_ = accessCount log) (h : InvClock s) :
    s1.current_timestamp_ = accessCount (log ++ events) ∧ InvClock s1 := by
  rw [accessCount_append] at hno ⊢
  cases c with
  | RecordAccess f a =>
    simp only [exec] at hx
    cases hr : RecordAccess s f a with
    | error e => simp [hr] at hx
    | ok s2 =>
      simp only [hr, Except.ok.injEq, Prod.mk.injEq] at hx
      obtain ⟨rfl, rfl⟩ := hx
      obtain ⟨_, rfl⟩ := RecordAccess_eq_ok hr
      have h1 : accessCount [Event.accessed f] = 1 := rfl
      rw [h1] at hno ⊢
      obtain ⟨hi, hc⟩ := invClock_recorded h f (by omega)
      exact ⟨by omega, hi⟩
  | SetEvictable f b =>
    simp only [exec, Except.ok.injEq, Prod.mk.injEq] at hx
    obtain ⟨rfl, rfl⟩ := hx
    obtain ⟨hi, hc⟩ := invClock_SetEvictable h f b
    have h0 : accessCount ([] : List Event) = 0 := rfl
    exact ⟨by omega, hi⟩
  | Remove f =>
    simp only [exec] at hx
    cases hr : Remove s f with
    | error e => simp [hr] at hx
    | ok s2 =>
      obtain ⟨hi, hc⟩ := invClock_Remove h hr
      obtain ⟨node, hf, _⟩ := Remove_eq_ok hr
      simp only [hr, hf, Except.ok.injEq, Prod.mk.injEq] at hx
      obtain ⟨rfl, rfl⟩ := hx
      have h0 : accessCount (if node.is_evictable_ = true then [Event.removed f] else []) = 0 := by
        split <;> rfl
      exact ⟨by omega, hi⟩
  | Evict =>
    simp only [exec] at hx
    rcases evict_cases (reachable_inv hs) with ⟨_, hrun⟩ | ⟨f, node, hf, hev, hrun⟩
    · simp only [hrun, Except.ok.injEq, Prod.mk.injEq] at hx
      obtain ⟨rfl, rfl⟩ := hx
      have h0 : accessCount ([] : List Event) = 0 := rfl
      exact ⟨by omega, h⟩
    · simp only [hrun, Except.ok.injEq, Prod.mk.injEq] at hx
      obtain ⟨rfl, rfl⟩ := hx
      have h0 : accessCount [Event.evicted f] = 0 := rfl
      have hc : (removed s f).current_timestamp_ = s.current_timestamp_ := rfl
      exact ⟨by omega, invClock_removed h f⟩

theorem run_accessCount_le (cs : List Call) :
    ∀ (s : LRUKReplacer) (log : List Event) (s1 : LRUKReplacer) (log1 : List Event),
      run s log cs = .ok (s1, log1) → accessCount log ≤ accessCount log1 := by
  induction cs with
  | nil =>
    intro s log s1 log1 hrun
    simp only [run, Except.ok.injEq, Prod.mk.injEq] at hrun
    rw [hrun.2]
  | cons c cs ih =>
    intro s log s1 log1 hrun
    simp only [run] at hrun
    cases hx : exec s c with
    | error e => simp [hx] at hrun
    | ok r =>
      obtain ⟨s2, events⟩ := r
      simp only [hx] at hrun
      have := ih s2 (log ++ events) s1 log1 hrun
      rw [accessCount_append] at this
      omega

theorem run_clock (cs : List Call) :
    ∀ (s : LRUKReplacer) (log : List Event) (s1 : LRUKReplacer) (log1 : List Event),
      Reachable s → (∀ c ∈ cs, c.typed) → run s log cs = .ok (s1, log1) →
      accessCount log1 < SIZE_MOD →
      s.current_timestamp_ = accessCount log → InvClock s →
      s1.current_timestamp_ = accessCount log1 ∧ InvClock s1 := by
  induction cs with
  | nil =>
    intro s log s1 log1 _ _ hrun _ hcount h
    simp only [run, Except.ok.injEq, Prod.mk.injEq] at hrun
    obtain ⟨rfl, rfl⟩ := hrun
    exact ⟨hcount, h⟩
  | cons c cs ih =>
    intro s log s1 log1 hs hc hrun hno hcount h
    simp only [run] at hrun
    cases hx : exec s c with
    | error e => simp [hx] at hrun
    | ok r =>
      obtain ⟨s2, events⟩ := r
      simp only [hx] at hrun
      have hle := run_accessCount_le cs s2 (log ++ events) s1 log1 hrun
      obtain ⟨hcount2, h2⟩ := exec_clock hs hx log (lt_of_le_of_lt hle hno) hcount h
      exact ih s2 (log ++ events) s1 log1
        (exec_reachable hs (hc c (List.mem_cons_self _ _)) hx)
        (fun c1 h1 => hc c1 (List.mem_cons_of_mem _ h1)) hrun hno hcount2 h2

/-- Claim C18.  After every sequence of calls that return, on a replacer that was just
constructed, as long as fewer than `2 ^ 64` accesses were recorded (the clock did not
wrap): the clock equals the number of `RecordAccess` calls that returned, every stored
timestamp is below the clock, every history increases strictly from oldest to newest
entry and so holds no timestamp twice, and no timestamp is in the histories of two
frames. -/
theorem clock_orders_accesses (num_frames k : Nat) (hn : num_frames < SIZE_MOD)
    (hk : k < SIZE_MOD) (cs : List Call) (hc : ∀ c ∈ cs, c.typed)
    (s : LRUKReplacer) (log : List Event)
    (hrun : run (LRUKReplacer.new num_frames k) [] cs = .ok (s, log))
    (hno : accessCount log < SIZE_MOD) :
    s.current_timestamp_ = accessCount log ∧
    (∀ f node t, find s.node_store_ f = some node → t ∈ node.history_ →
      t < s.current_timestamp_) ∧
    (∀ f node, find s.node_store_ f = some node →
      node.history_.Pairwise (fun a b => a < b) ∧ node.history_.Nodup) ∧
    (∀ f g nodeF nodeG t, find s.node_store_ f = some nodeF →
      find s.node_store_ g = some nodeG → t ∈ nodeF.history_ → t ∈ nodeG.history_ →
      f = g) := by
  obtain ⟨hcount, h⟩ := run_clock cs (LRUKReplacer.new num_frames k) [] s log
    (Reachable.construct num_frames k hn hk) hc hrun hno rfl
    (invClock_construct num_frames k)
  refine ⟨hcount, ?_, ?_, ?_⟩
  · intro f node t hf ht
    exact h.below_clock _ (mem_of_find_eq_some hf) t ht
  · intro f node hf
    have hinc := h.increasing _ (mem_of_find_eq_some hf)
    exact ⟨hinc, hinc.imp (fun hab => Nat.ne_of_lt hab)⟩
  · intro f g nodeF nodeG t hf hg htf htg
    exact h.disjoint _ (mem_of_find_eq_some hf) _ (mem_of_find_eq_some hg) t htf htg

/-- Claim C18 on an example: after the calls `evictThenAccess`, three of which are
`RecordAccess`, the clock is 3 and the history of frame 1 is `1, 2`. -/
theorem clock_orders_accesses_witness :
    run (LRUKReplacer.new 2 2) [] evictThenAccess
      = .ok (afterEviction, [.accessed 0, .accessed 1, .evicted 0, .accessed 1]) ∧
    afterEviction.current_timestamp_ = 3 ∧
    (afterEviction.current_timestamp_
        = accessCount [.accessed 0, .accessed 1, .evicted 0, .accessed 1] ∧
      (∀ f node t, find afterEviction.node_store_ f = some node → t ∈ node.history_ →
        t < afterEviction.current_timestamp_) ∧
      (∀ f node, find afterEviction.node_store_ f = some node →
        node.history_.Pairwise (fun a b => a < b) ∧ node.history_.Nodup) ∧
      (∀ f g nodeF nodeG t, find afterEviction.node_store_ f = some nodeF →
        find afterEviction.node_store_ g = some nodeG → t ∈ nodeF.history_ →
        t ∈ nodeG.history_ → f = g)) :=
  ⟨rfl, rfl,
    clock_orders_accesses 2 2 (by decide) (by decide) evictThenAccess (by decide)
      afterEviction [.accessed 0, .accessed 1, .evicted 0, .accessed 1] rfl (by decide)⟩

/-! ## The worker loop of the disk scheduler -/

theorem queue_split (items : List (Option DiskRequest)) (h : none ∈ items) :
    items = (beforeShutdown items).map some ++ none :: afterShutdown items := by
  induction items with
  | nil => simp at h
  | cons arg rest ih =>
    cases arg with
    | none => simp [beforeShutdown, afterShutdown]
    | some request =>
      have hrest : none ∈ rest := by simpa using h
      have := ih hrest
      simp only [beforeShutdown, afterShutdown] at this ⊢
      simp only [List.takeWhile_cons, List.dropWhile_cons, Option.isSome_some, if_true,
        List.filterMap_cons, id_eq, List.map_cons, List.cons_append]
      rw [← this]

/-- Claim C15.  With the contents of the channel a finite sequence of items that contains
a shutdown marker, the worker returns; what it did is, for each request that precedes the
first marker, in enqueue order, the call of `WritePage` or `ReadPage` with the page id and
buffer of the request followed by the fulfilment of its completion signal with `true`, and
nothing else; the items after the first marker are left in the channel. -/
theorem worker_processes_until_shutdown (items : List (Option DiskRequest))
    (h : none ∈ items) :
    items = (beforeShutdown items).map some ++ none :: afterShutdown items ∧
    StartWorkerThread items
      = some (((beforeShutdown items).map processed).flatten, afterShutdown items) := by
  refine ⟨queue_split items h, ?_⟩
  induction items with
  | nil => simp at h
  | cons arg rest ih =>
    cases arg with
    | none => simp [StartWorkerThread, beforeShutdown, afterShutdown]
    | some request =>
      have hrest : none ∈ rest := by simpa using h
      have hrun := ih hrest
      simp only [beforeShutdown, afterShutdown] at hrun
      simp only [StartWorkerThread, beforeShutdown, afterShutdown, hrun,
        List.takeWhile_cons, List.dropWhile_cons, Option.isSome_some, if_true,
        List.filterMap_cons, id_eq, List.map_cons, List.flatten_cons, processed]
      cases request.is_write_ <;> simp

/-- Claim C15 on an example: a write, a read, the marker, another write; the worker does
the write and the read, fulfils their signals, and leaves the last write in the channel. -/
theorem worker_processes_until_shutdown_witness :
    StartWorkerThread
        [some { is_write_ := true, data_ := 1, page_id_ := 5, callback_ := 9 },
         some { is_write_ := false, data_ := 2, page_id_ := 5, callback_ := 10 },
         none,
         some { is_write_ := true, data_ := 3, page_id_ := 6, callback_ := 11 }]
      = some ([.WritePage 5 1, .set_value 9 true, .ReadPage 5 2, .set_value 10 true],
          [some { is_write_ := true, data_ := 3, page_id_ := 6, callback_ := 11 }]) :=
  (worker_processes_until_shutdown
    [some { is_write_ := true, data_ := 1, page_id_ := 5, callback_ := 9 },
     some { is_write_ := false, data_ := 2, page_id_ := 5, callback_ := 10 },
     none,
     some { is_write_ := true, data_ := 3, page_id_ := 6, callback_ := 11 }]
    (by decide)).2

/-! ## HyperLogLog (Presto): the register of a bucket -/

theorem rightmostLoop_eq (b : Nat) :
    ∀ (fuel i : Nat), i + fuel = 64 →
      rightmostLoop b fuel i i
        = i + ((List.range' i fuel).takeWhile (fun j => !b.testBit j)).length := by
  intro fuel
  induction fuel with
  | zero =>
    intro i hi
    simp only [rightmostLoop, List.range'_zero, List.takeWhile_nil, List.length_nil]
    omega
  | succ fuel ih =>
    intro i hi
    by_cases hbit : b.testBit i = true
    · simp [rightmostLoop, List.range'_succ, hbit]
    · have hmod : (i + 1) % 256 = i + 1 := Nat.mod_eq_of_lt (by omega)
      have hfalse : b.testBit i = false := by simpa using hbit
      simp only [rightmostLoop, hfalse, Bool.false_eq_true, if_false, hmod,
        List.range'_succ, List.takeWhile_cons, Bool.not_false, if_true, List.length_cons]
      rw [ih (i + 1) (by omega)]
      omega

/-- The loop of `PositionOfRightmostOne` counts the trailing zero bits. -/
theorem PositionOfRightmostOne_eq (h : Nat) : PositionOfRightmostOne h = trailingZeroBits h := by
  unfold PositionOfRightmostOne trailingZeroBits
  rw [rightmostLoop_eq h 64 0 rfl, List.range_eq_range']
  simp

theorem trailingZeroBits_le (h : Nat) : trailingZeroBits h ≤ 64 := by
  unfold trailingZeroBits
  have h1 := (List.takeWhile_sublist (fun i => !h.testBit i) (l := List.range 64)).length_le
  simpa using h1

/-- Splitting a value of at most 64 into its 4 low bits and 3 high bits, storing them in
the two bitsets and recombining them as `getWholeNumber` does gives the value back. -/
theorem split_recombine :
    ∀ pos, pos < 65 →
      ((pos &&& 0x0F) % 2 ^ DENSE_BUCKET_SIZE % 256) |||
        (((((pos &&& 0x70) >>> 4) % 256 % 2 ^ OVERFLOW_BUCKET_SIZE) % 256) <<< 4) % 256
        = pos := by
  decide

theorem AddElem_register_aux {KeyType : Type} (CalculateHash : KeyType → Nat)
    (hll : HyperLogLogPresto) (val : KeyType) (m : Nat) (hm : m < 64)
    (hn : hll.n_leading_bits_ = (m : Int))
    (hsize : hll.dense_size = 2 ^ m)
    (hh : CalculateHash val < 2 ^ 64) :
    ∃ old hll1,
      getWholeNumber hll (CalculateHash val / 2 ^ (64 - m)) = .ok old ∧
      AddElem CalculateHash hll val = .ok hll1 ∧
      getWholeNumber hll1 (CalculateHash val / 2 ^ (64 - m))
        = .ok (max old (min (trailingZeroBits (CalculateHash val)) (64 - m))) := by
  have hb : CalculateHash val / 2 ^ (64 - m) < hll.dense_size := by
    rw [hsize]
    apply Nat.div_lt_of_lt_mul
    rw [← Nat.pow_add]
    have : 64 - m + m = 64 := by omega
    rw [this]
    exact hh
  have hbeq : (if hll.n_leading_bits_ > 0
      then CalculateHash val >>> (64 - hll.n_leading_bits_).toNat else 0)
      = CalculateHash val / 2 ^ (64 - m) := by
    rw [hn]
    by_cases h0 : m = 0
    · subst h0
      simp only [Nat.cast_zero, gt_iff_lt, lt_self_iff_false, if_false]
      exact (Nat.div_eq_of_lt hh).symm
    · have hpos : ((m : Int) > 0) := by omega
      have hto : (64 - (m : Int)).toNat = 64 - m := by omega
      simp only [hpos, if_true, hto, Nat.shiftRight_eq_div_pow]
  have hpos0 := PositionOfRightmostOne_eq (CalculateHash val)
  have htz := trailingZeroBits_le (CalculateHash val)
  have hposeq : (if (PositionOfRightmostOne (CalculateHash val) : Int) ≥ 64 - hll.n_leading_bits_
      then ((64 - hll.n_leading_bits_) % 256).toNat
      else PositionOfRightmostOne (CalculateHash val))
      = min (trailingZeroBits (CalculateHash val)) (64 - m) := by
    rw [hn, hpos0]
    split
    · rename_i hge
      have : ((64 - (m : Int)) % 256).toNat = 64 - m := by omega
      rw [this]
      omega
    · rename_i hlt
      omega
  have hle : min (trailingZeroBits (CalculateHash val)) (64 - m) < 65 := by omega
  have hold : ∃ old, getWholeNumber hll (CalculateHash val / 2 ^ (64 - m)) = .ok old := by
    simp only [getWholeNumber, hb, if_true]
    exact ⟨_, rfl⟩
  obtain ⟨old, hold⟩ := hold
  have hnot : ¬ hll.n_leading_bits_ > 64 := by omega
  refine ⟨old, ?_⟩
  by_cases hgt : min (trailingZeroBits (CalculateHash val)) (64 - m) > old
  · refine ⟨stored hll (CalculateHash val / 2 ^ (64 - m))
      (min (trailingZeroBits (CalculateHash val)) (64 - m)), hold, ?_, ?_⟩
    · unfold AddElem
      simp only [hnot, if_false, hbeq, hposeq, hold, hgt, if_true]
      rfl
    · have hb2 : CalculateHash val / 2 ^ (64 - m) < (stored hll (CalculateHash val / 2 ^ (64 - m))
          (min (trailingZeroBits (CalculateHash val)) (64 - m))).dense_size := hb
      simp only [getWholeNumber, hb2, if_true, Except.ok.injEq, stored]
      rw [split_recombine _ hle, if_pos hb, max_eq_right (le_of_lt hgt)]
  · refine ⟨{ hll with hasStarted := true }, hold, ?_, ?_⟩
    · unfold AddElem
      simp only [hnot, if_false, hbeq, hposeq, hold, hgt, if_false]
    · have : getWholeNumber { hll with hasStarted := true } (CalculateHash val / 2 ^ (64 - m))
          = getWholeNumber hll (CalculateHash val / 2 ^ (64 - m)) := rfl
      rw [this, hold, max_eq_left (not_lt.1 hgt)]

/-- Claim C19.  For `0 <= n_leading_bits < 64`, a state with `2 ^ n_leading_bits` dense
buckets and a hash value `h` below `2 ^ 64`, with `b` the top `n_leading_bits` bits of
`h`: `getWholeNumber(b)` returns before the call, `AddElem` returns, and after it
`getWholeNumber(b)` is the maximum of the old value and of the minimum of the number of
trailing zero bits of `h` and `64 - n_leading_bits`. -/
theorem AddElem_register {KeyType : Type} (CalculateHash : KeyType → Nat)
    (hll : HyperLogLogPresto) (val : KeyType)
    (hn0 : 0 ≤ hll.n_leading_bits_) (hn : hll.n_leading_bits_ < 64)
    (hsize : hll.dense_size = 2 ^ hll.n_leading_bits_.toNat)
    (hh : CalculateHash val < 2 ^ 64) :
    ∃ old hll1,
      getWholeNumber hll (CalculateHash val / 2 ^ (64 - hll.n_leading_bits_.toNat)) = .ok old ∧
      AddElem CalculateHash hll val = .ok hll1 ∧
      getWholeNumber hll1 (CalculateHash val / 2 ^ (64 - hll.n_leading_bits_.toNat))
        = .ok (max old
            (min (trailingZeroBits (CalculateHash val)) (64 - hll.n_leading_bits_.toNat))) :=
  AddElem_register_aux CalculateHash hll val hll.n_leading_bits_.toNat (by omega) (by omega)
    hsize hh

/-- Claim C19 on an example: with 2 leading bits the hash value 40 (binary `101000`) is in
bucket 0 and has 3 trailing zero bits; the register of bucket 0 goes from 0 to 3. -/
theorem AddElem_register_witness :
    getWholeNumber (HyperLogLogPresto.new 2) 0 = .ok 0 ∧
    trailingZeroBits 40 = 3 ∧
    ∃ old hll1,
      getWholeNumber (HyperLogLogPresto.new 2) (40 / 2 ^ (64 - 2)) = .ok old ∧
      AddElem (fun h : Nat => h) (HyperLogLogPresto.new 2) 40 = .ok hll1 ∧
      getWholeNumber hll1 (40 / 2 ^ (64 - 2))
        = .ok (max old (min (trailingZeroBits 40) (64 - 2))) :=
  ⟨rfl, by decide,
    AddElem_register (fun h : Nat => h) (HyperLogLogPresto.new 2) 40 (by decide) (by decide)
      rfl (by decide)⟩

/-- Claim C20, evaluated on the code where it departs from the claim.  With 17 leading
bits, after `AddElem` of the hash value `2 ^ 16 = 65536` (bucket 0, 16 trailing zero bits)
the register of bucket 0 reads 16.  `AddElem` of the hash value
`2 ^ 63 = 9223372036854775808` (bucket `2 ^ 16`, 63 trailing zero bits, so the value 47)
then changes the register of bucket 0 to 32: the overflow bucket is stored under
`static_cast<uint16_t>(b)`, which is 0 for both buckets. -/
theorem AddElem_changes_other_bucket :
    (65536 : Nat) = 2 ^ 16 ∧ (9223372036854775808 : Nat) = 2 ^ 63 ∧
    (65536 : Nat) / 2 ^ (64 - 17) = 0 ∧ (9223372036854775808 : Nat) / 2 ^ (64 - 17) = 65536 ∧
    (0 : Nat) ≠ 65536 ∧ (0 : Nat) < 2 ^ 17 ∧ (65536 : Nat) < 2 ^ 17 ∧
    ∃ hll1 hll2,
      AddElem (fun h : Nat => h) (HyperLogLogPresto.new 17) 65536 = .ok hll1 ∧
      getWholeNumber hll1 0 = .ok 16 ∧
      AddElem (fun h : Nat => h) hll1 9223372036854775808 = .ok hll2 ∧
      getWholeNumber hll2 65536 = .ok 47 ∧
      getWholeNumber hll2 0 = .ok 32 :=
  ⟨by decide, by decide, by decide, by decide, by decide, by decide, by decide,
    stored (HyperLogLogPresto.new 17) 0 16,
    stored (stored (HyperLogLogPresto.new 17) 0 16) 65536 47,
    rfl, rfl, rfl, rfl, rfl⟩

end bustub
